import Mathlib

/-!
TextScramble: the text-scramble animator of `src/script.js` (lines 246-298)
A shallow embedding of the class `TextScramble` together with the two host
facilities it talks to (the promise it creates and the per-frame callback
scheduler), followed by the properties of the animator. The namespace
`Portfolio` embeds three smaller pieces of the page scripts: the command
palette, `throttle` and the project filter.
* A JavaScript string is the list of its UTF-16 code units.
* `Math.random()` is a sequence `R : Nat → Draw` of doubles in `[0, 1)`; the
  state counts how many of them have been consumed. Products of doubles are
  rounded as IEEE 754 rounds them.
* The DOM surface is external: the text read from `el.innerText` is an argument
  of `setText`, every assignment to `el.innerHTML` is recorded in the trace.
-/

namespace TextScramble

/-! ## Embedding of the program -/

/-- One UTF-16 code unit of a JavaScript string. -/
abbrev CodeUnit := Nat

/-- A JavaScript string, as the list of its code units. -/
abbrev Str := List CodeUnit

/-- The code units of a literal whose characters all lie in the basic plane. -/
def units (s : String) : Str := s.toList.map Char.toNat

/-- One value returned by `Math.random()`: a double in `[0, 1)`, the number
`num / 2 ^ exp` with `num < 2 ^ 53` and `53 ≤ exp ≤ 1074`. Every double in `[0, 1)`,
subnormal ones included, is of this form. -/
structure Draw where
  num : Nat
  exp : Nat
  num_lt : num < 2 ^ 53
  exp_ge : 53 ≤ exp
  exp_le : exp ≤ 1074

/-- The denominator of a draw: the draw is `num / den`. -/
def Draw.den (r : Draw) : Nat := 2 ^ r.exp

/-- The integer nearest to `q / 2 ^ s`, a tie going to the even one: the rounding of IEEE 754
arithmetic. -/
def roundShift (q s : Nat) : Nat :=
  if 2 * (q % 2 ^ s) < 2 ^ s then q / 2 ^ s
  else if 2 ^ s < 2 * (q % 2 ^ s) then q / 2 ^ s + 1
  else if q / 2 ^ s % 2 = 0 then q / 2 ^ s
  else q / 2 ^ s + 1

/-- The number of binary digits of `q` beyond 53, counted by halving `q` while it is not
below `2 ^ 53`; `fuel` bounds the number of halvings and `q` itself is enough. -/
def excessBitsAux : Nat → Nat → Nat
  | 0, _ => 0
  | fuel + 1, q => if q < 2 ^ 53 then 0 else excessBitsAux fuel (q / 2) + 1

/-- The number of binary digits of `q` beyond the 53 that the significand of a double
holds. -/
def excessBits (q : Nat) : Nat := excessBitsAux q q

/-- `Math.floor(r * n)` for a draw `r` and an integer `0 ≤ n < 2 ^ 53`, in double
arithmetic: the exact product `num * n / 2 ^ exp` is rounded to 53 significant binary
digits, ties to even, and the rounded product is floored. -/
def Draw.floorMul (r : Draw) (n : Nat) : Nat :=
  let q := r.num * n
  let s := excessBits q
  roundShift q s * 2 ^ s / r.den

/-- `r < 0.28` for a draw `r`. -/
def Draw.below28 (r : Draw) : Bool := decide (r.num * 100 < 28 * r.den)

/-- An entry of `this.queue`: `{ from, to, start, end, char }`. The field `char` is
`none` while it is `undefined`. -/
structure Cell where
  from_ : Str
  to_ : Str
  start : Nat
  end_ : Nat
  char : Option CodeUnit
  deriving DecidableEq

/-- What the animator does to its host, in the order in which it does it. -/
inductive Effect where
  /-- The assignment `this.el.innerHTML = html`. -/
  | write (html : Str)
  /-- The call `this.resolve()` (no argument) on the resolver of the given promise. -/
  | resolve (promise : Nat)
  /-- The call `requestAnimationFrame(this.update)`, which returned the given handle. -/
  | request (handle : Nat)
  /-- The call `this.resolve()` while `this.resolve` is not a function: a `TypeError`. -/
  | throw
  deriving DecidableEq

/-- The fields of one `TextScramble` instance and of its host.
`queue`, `frame`, `resolve` and `frameRequest` are the instance fields (`none` is
`undefined`). `pending` holds the handles of the frame callbacks that are scheduled and
have neither run nor been cancelled, `nextHandle` and `nextPromise` are the host's
counters for fresh handles and promises, `used` counts the calls of `Math.random()`. -/
structure State where
  queue : List Cell
  frame : Nat
  resolve : Option Nat
  frameRequest : Option Nat
  pending : List Nat
  nextHandle : Nat
  nextPromise : Nat
  used : Nat
  trace : List Effect
  deriving DecidableEq

/-- The state after `new TextScramble(el)`: no field but `el`, `chars` and `update` is set,
nothing is scheduled. -/
def init : State :=
  { queue := [], frame := 0, resolve := none, frameRequest := none,
    pending := [], nextHandle := 1, nextPromise := 0, used := 0, trace := [] }

/-- The field `this.chars`: the noise alphabet. -/
def chars : Str := units "!<>-_\\/[]\x7b\x7d—=+*^?#________"

/-- The expression `s[i] || ''`: the one-unit string at index `i`, empty past the end. -/
def charAt (s : Str) (i : Nat) : Str :=
  match s[i]? with
  | some c => [c]
  | none => []

/-- The method `randomChar`, reading draw number `used`:
`this.chars[Math.floor(Math.random() * this.chars.length)]`. -/
def randomChar (R : Nat → Draw) (used : Nat) : Option CodeUnit :=
  chars[(R used).floorMul chars.length]?

/-- The text of `char` inside a template literal. -/
def glyphText : Option CodeUnit → Str
  | some c => [c]
  | none => units "undefined"

/-- The template literal of `update`, the noise markup around a glyph. -/
def dud (char : Option CodeUnit) : Str :=
  units "<span class=\"dud\">" ++ glyphText char ++ units "</span>"

/-- The body of the loop of `setText`, run `n` more times from index `i`: each pass draws
`start` and then `end` and pushes one cell. Returns the queue and the draws consumed. -/
def fillQueue (R : Nat → Draw) (oldText newText : Str) :
    Nat → Nat → Nat → List Cell → List Cell × Nat
  | 0, _, used, queue => (queue, used)
  | n + 1, i, used, queue =>
    let start := (R used).floorMul 40
    let end_ := start + (R (used + 1)).floorMul 40
    fillQueue R oldText newText n (i + 1) (used + 2)
      (queue ++ [{ from_ := charAt oldText i, to_ := charAt newText i,
                   start := start, end_ := end_, char := none }])

/-- The local variables of `update` while its loop runs; `queue` holds the cells already
visited, as the loop leaves them. -/
structure Loop where
  output : Str
  complete : Nat
  queue : List Cell
  used : Nat
  deriving DecidableEq

/-- One pass of the loop of `update` at frame `frame`, on cell `c`. -/
def visit (R : Nat → Draw) (frame : Nat) (a : Loop) (c : Cell) : Loop :=
  if c.end_ ≤ frame then
    { a with complete := a.complete + 1, output := a.output ++ c.to_, queue := a.queue ++ [c] }
  else if c.start ≤ frame then
    match c.char with
    | none =>
      let char := randomChar R a.used
      { a with output := a.output ++ dud char, queue := a.queue ++ [{ c with char := char }],
               used := a.used + 1 }
    | some g =>
      if (R a.used).below28 then
        let char := randomChar R (a.used + 1)
        { a with output := a.output ++ dud char, queue := a.queue ++ [{ c with char := char }],
                 used := a.used + 2 }
      else
        { a with output := a.output ++ dud (some g), queue := a.queue ++ [c],
                 used := a.used + 1 }
  else
    { a with output := a.output ++ c.from_, queue := a.queue ++ [c] }

/-- The whole loop of `update` over the queue. -/
def loop (R : Nat → Draw) (frame : Nat) (queue : List Cell) (used : Nat) : Loop :=
  queue.foldl (visit R frame) { output := [], complete := 0, queue := [], used := used }

/-- The method `update`: one tick. -/
def update (R : Nat → Draw) (s : State) : State :=
  let a := loop R s.frame s.queue s.used
  let s1 := { s with queue := a.queue, used := a.used,
                     trace := s.trace ++ [Effect.write a.output] }
  if a.complete = s1.queue.length then
    match s1.resolve with
    | some p => { s1 with trace := s1.trace ++ [Effect.resolve p] }
    | none => { s1 with trace := s1.trace ++ [Effect.throw] }
  else
    { s1 with frameRequest := some s1.nextHandle,
              pending := s1.pending ++ [s1.nextHandle],
              nextHandle := s1.nextHandle + 1,
              trace := s1.trace ++ [Effect.request s1.nextHandle],
              frame := s1.frame + 1 }

/-- The host's `cancelAnimationFrame(handle)`: the callback with that handle, if it is
still scheduled, is removed; `undefined` cancels nothing. -/
def cancelAnimationFrame (pending : List Nat) : Option Nat → List Nat
  | some h => pending.filter (fun x => x ≠ h)
  | none => pending

/-- The state of `setText(newText)` right before its call of `this.update()`, where
`oldText` is what `this.el.innerText` returned. -/
def setTextPre (R : Nat → Draw) (s : State) (oldText newText : Str) : State :=
  let length := max oldText.length newText.length
  let q := fillQueue R oldText newText length 0 s.used []
  { s with resolve := some s.nextPromise,
           nextPromise := s.nextPromise + 1,
           queue := q.1,
           used := q.2,
           pending := cancelAnimationFrame s.pending s.frameRequest,
           frame := 0 }

/-- The method `setText`: the promise it returns and the state it leaves. -/
def setText (R : Nat → Draw) (s : State) (oldText newText : Str) : Nat × State :=
  (s.nextPromise, update R (setTextPre R s oldText newText))

/-- The host takes the scheduled callback `h` off its list, right before running it. -/
def framePre (s : State) (h : Nat) : State :=
  { s with pending := s.pending.filter (fun x => x ≠ h) }

/-- The host runs the scheduled frame callback with handle `h`, which is `this.update`. -/
def frameCallback (R : Nat → Draw) (s : State) (h : Nat) : State :=
  update R (framePre s h)

/-- The next animation frame: the host runs the oldest scheduled callback, if there is one. -/
def nextFrame (R : Nat → Draw) (s : State) : State :=
  match s.pending with
  | [] => s
  | h :: _ => frameCallback R s h

/-- The states an animator can be in: any interleaving of `setText` calls and of frame
callbacks that are scheduled, starting from a fresh instance. -/
inductive Reachable (R : Nat → Draw) : State → Prop where
  | init : Reachable R init
  | setText (s : State) (oldText newText : Str) :
      Reachable R s → Reachable R (setText R s oldText newText).2
  | frame (s : State) (h : Nat) :
      Reachable R s → h ∈ s.pending → Reachable R (frameCallback R s h)

/-- A draw from a numerator below `64`, the double `(n mod 64) / 64`. -/
def Draw.ofNat64 (n : Nat) : Draw :=
  { num := n % 64 * 2 ^ 47, exp := 53,
    num_lt := by have := Nat.mod_lt n (show 0 < 64 by decide); omega,
    exp_ge := Nat.le_refl _, exp_le := by decide }

/-- The double nearest to `0.825`, which lies below it: `7430939385161318 / 2 ^ 53`. -/
def draw0825 : Draw :=
  { num := 7430939385161318, exp := 53, num_lt := by decide, exp_ge := Nat.le_refl _,
    exp_le := by decide }

/-- The double `0.1923076923076923`, just below `5 / 26`: `1732153702834806 / 2 ^ 53`. -/
def draw01923 : Draw :=
  { num := 1732153702834806, exp := 53, num_lt := by decide, exp_ge := Nat.le_refl _,
    exp_le := by decide }

/-- The fields of a cell that `setText` writes and that `update` only reads. -/
def Cell.fixed (c : Cell) : Str × Str × Nat × Nat := (c.from_, c.to_, c.start, c.end_)

/-- The largest `end` of a queue, `0` for the empty queue. -/
def maxEnd (queue : List Cell) : Nat := (queue.map Cell.end_).foldr max 0

/-- What `this.resolve()` does: it resolves the promise whose resolver the field holds, and
throws when the field is unset. -/
def resolveEffect : Option Nat → Effect
  | some p => Effect.resolve p
  | none => Effect.throw

/-- The cell that the loop of `setText` pushes at index `i`, when its first draw is draw
number `u`. -/
def builtCell (R : Nat → Draw) (oldText newText : Str) (u i : Nat) : Cell :=
  { from_ := charAt oldText i, to_ := charAt newText i,
    start := (R (u + 2 * i)).floorMul 40,
    end_ := (R (u + 2 * i)).floorMul 40 + (R (u + 2 * i + 1)).floorMul 40,
    char := none }

/-- The queue that `setText` builds before its first tick. -/
def builtQueue (R : Nat → Draw) (s : State) (oldText newText : Str) : List Cell :=
  (setTextPre R s oldText newText).queue

/-- The state after `setText(newText)` and `k` further animation frames: tick number `k`
of the task has run (the synchronous tick of `setText` is tick `0`), if the task has
that many. -/
def ticks (R : Nat → Draw) (s : State) (oldText newText : Str) (k : Nat) : State :=
  (nextFrame R)^[k] (setText R s oldText newText).2

/-- What holds in every reachable state. -/
structure Inv (s : State) : Prop where
  pending_eq : s.pending = [] ∨ ∃ h, s.pending = [h] ∧ s.frameRequest = some h
  handle_lt : ∀ h ∈ s.pending, h < s.nextHandle
  resolve_lt : ∀ p, s.resolve = some p → p < s.nextPromise
  trace_lt : ∀ p, Effect.resolve p ∈ s.trace → p < s.nextPromise
  in_flight : s.pending ≠ [] → ∃ p, s.resolve = some p ∧ Effect.resolve p ∉ s.trace
  count_le : ∀ p, s.trace.count (Effect.resolve p) ≤ 1
  no_throw : Effect.throw ∉ s.trace

/-- What holds in every state in which `update` is entered. -/
structure Ready (u : State) : Prop where
  pending_eq : u.pending = []
  resolve_some : ∃ p, u.resolve = some p ∧ Effect.resolve p ∉ u.trace
  resolve_lt : ∀ p, u.resolve = some p → p < u.nextPromise
  trace_lt : ∀ p, Effect.resolve p ∈ u.trace → p < u.nextPromise
  count_le : ∀ p, u.trace.count (Effect.resolve p) ≤ 1
  no_throw : Effect.throw ∉ u.trace

/-- The promises on which `resolve` was called, in the order of the calls. -/
def resolved (trace : List Effect) : List Nat :=
  trace.filterMap fun e =>
    match e with
    | Effect.resolve p => some p
    | _ => none

/-- The task of promise `p`, whose queue was built as `q0`, enters `update` at frame `f`;
`rs` lists the promises resolved so far. -/
structure Entering (p : Nat) (q0 : List Cell) (rs : List Nat) (f : Nat) (u : State) :
    Prop where
  frame_eq : u.frame = f
  pending_eq : u.pending = []
  fixed_eq : u.queue.map Cell.fixed = q0.map Cell.fixed
  resolve_eq : u.resolve = some p
  resolved_eq : resolved u.trace = rs

/-- The task of promise `p` has run its ticks at the frames below `f`, has not resolved and
waits for its tick at frame `f`, which is scheduled. -/
structure Active (p : Nat) (q0 : List Cell) (rs : List Nat) (f : Nat) (t : State) :
    Prop where
  frame_eq : t.frame = f
  pending_eq : ∃ h, t.pending = [h]
  fixed_eq : t.queue.map Cell.fixed = q0.map Cell.fixed
  resolve_eq : t.resolve = some p
  resolved_eq : resolved t.trace = rs

/-- The task of promise `p` has run its last tick, at frame `maxEnd q0`: that tick wrote
`text`, then resolved `p`, and scheduled nothing. -/
structure Done (p : Nat) (q0 : List Cell) (rs : List Nat) (text : Str) (t : State) :
    Prop where
  frame_eq : t.frame = maxEnd q0
  pending_eq : t.pending = []
  fixed_eq : t.queue.map Cell.fixed = q0.map Cell.fixed
  resolve_eq : t.resolve = some p
  trace_eq : ∃ pre, t.trace = pre ++ [Effect.write text, Effect.resolve p] ∧
    resolved pre = rs

/-- A sequence of draws for the examples: draw number `n` is `((5 n + 3) mod 64) / 64`. -/
def sampleDraws : Nat → Draw := fun n => Draw.ofNat64 (n * 5 + 3)

/-- The states that follow `s`: any interleaving of `setText` calls and of frame callbacks
that are scheduled, starting from `s`. -/
inductive Steps (R : Nat → Draw) (s : State) : State → Prop where
  | refl : Steps R s s
  | setText (t : State) (oldText newText : Str) :
      Steps R s t → Steps R s (setText R t oldText newText).2
  | frame (t : State) (h : Nat) :
      Steps R s t → h ∈ t.pending → Steps R s (frameCallback R t h)

/-- The promise `p` and the handles below `H` belong to the past: `p` is unresolved and
older than the promise of the current task, nothing below `H` is scheduled. -/
structure Past (p H : Nat) (t : State) : Prop where
  unresolved : Effect.resolve p ∉ t.trace
  resolve_gt : ∀ q, t.resolve = some q → p < q
  promise_gt : p < t.nextPromise
  pending_ge : ∀ h ∈ t.pending, H ≤ h
  handle_ge : H ≤ t.nextHandle

/-- The texts of the cell at index `i`, in the words of the specification: the unit of the
text at `i` when `i` is below its length, the empty string otherwise. -/
def cellTexts (oldText newText : Str) (i : Nat) : Str × Str :=
  (if h : i < oldText.length then [oldText[i]] else [],
   if h : i < newText.length then [newText[i]] else [])

/-- The noise marker around one glyph: `<span class="dud">g</span>`. -/
def noiseSpan (g : CodeUnit) : Str :=
  units "<span class=\"dud\">" ++ [g] ++ units "</span>"

/-- The rendering rule of the specification for one cell at frame `f`. -/
def renderCell (f : Nat) (c : Cell) : Str :=
  if c.end_ ≤ f then c.to_
  else if c.start ≤ f then
    match c.char with
    | some g => noiseSpan g
    | none => []
  else c.from_

/-- The rendering rule of the specification for a queue at frame `f`: the emitted units of
all cells, concatenated in index order. -/
def renderRule (f : Nat) (queue : List Cell) : Str := (queue.map (renderCell f)).flatten

/-- The effects of the tick that `update` runs from state `u`. -/
def tickEffects (R : Nat → Draw) (u : State) : List Effect :=
  (update R u).trace.drop u.trace.length

/-- The states in which `update` is entered: inside `setText`, called in a reachable state,
and at the start of a scheduled frame callback. -/
inductive AtTick (R : Nat → Draw) : State → Prop where
  | setText (s : State) (oldText newText : Str) :
      Reachable R s → AtTick R (setTextPre R s oldText newText)
  | frame (s : State) (h : Nat) :
      Reachable R s → h ∈ s.pending → AtTick R (framePre s h)

/-- The state in which tick number `k` of the task started by `setText` enters `update`:
inside `setText` for `k = 0`, and for a later tick right after the host has taken the
scheduled callback off its list. -/
def tickEntry (R : Nat → Draw) (s : State) (oldText newText : Str) : Nat → State
  | 0 => setTextPre R s oldText newText
  | k + 1 =>
    match (ticks R s oldText newText k).pending with
    | [] => ticks R s oldText newText k
    | h :: _ => framePre (ticks R s oldText newText k) h

/-- Whether a code unit is an ASCII letter or digit. -/
def isAsciiAlnum (u : CodeUnit) : Bool :=
  (decide (48 ≤ u) && decide (u ≤ 57)) || (decide (65 ≤ u) && decide (u ≤ 90)) ||
    (decide (97 ≤ u) && decide (u ≤ 122))

/-- The field `this.chars` of the copy of the class in `src/assets/script/script.js`
(line 535). The literal reads `â€”` where the one of `src/script.js` reads `—`; the rest of
the class (lines 532-584) is the same text as lines 246-298 of `src/script.js`. -/
def Assets.chars : Str := units "!<>-_\\/[]\x7b\x7dâ€”=+*^?#________"

/-- The method `randomChar` of the copy. -/
def Assets.randomChar (R : Nat → Draw) (used : Nat) : Option CodeUnit :=
  Assets.chars[(R used).floorMul Assets.chars.length]?

/-- One pass of the loop of `update` of the copy. -/
def Assets.visit (R : Nat → Draw) (frame : Nat) (a : Loop) (c : Cell) : Loop :=
  if c.end_ ≤ frame then
    { a with complete := a.complete + 1, output := a.output ++ c.to_, queue := a.queue ++ [c] }
  else if c.start ≤ frame then
    match c.char with
    | none =>
      let char := Assets.randomChar R a.used
      { a with output := a.output ++ dud char, queue := a.queue ++ [{ c with char := char }],
               used := a.used + 1 }
    | some g =>
      if (R a.used).below28 then
        let char := Assets.randomChar R (a.used + 1)
        { a with output := a.output ++ dud char, queue := a.queue ++ [{ c with char := char }],
                 used := a.used + 2 }
      else
        { a with output := a.output ++ dud (some g), queue := a.queue ++ [c],
                 used := a.used + 1 }
  else
    { a with output := a.output ++ c.from_, queue := a.queue ++ [c] }

/-- The whole loop of `update` of the copy. -/
def Assets.loop (R : Nat → Draw) (frame : Nat) (queue : List Cell) (used : Nat) : Loop :=
  queue.foldl (Assets.visit R frame) { output := [], complete := 0, queue := [], used := used }

/-- The method `update` of the copy. -/
def Assets.update (R : Nat → Draw) (s : State) : State :=
  let a := Assets.loop R s.frame s.queue s.used
  let s1 := { s with queue := a.queue, used := a.used,
                     trace := s.trace ++ [Effect.write a.output] }
  if a.complete = s1.queue.length then
    match s1.resolve with
    | some p => { s1 with trace := s1.trace ++ [Effect.resolve p] }
    | none => { s1 with trace := s1.trace ++ [Effect.throw] }
  else
    { s1 with frameRequest := some s1.nextHandle,
              pending := s1.pending ++ [s1.nextHandle],
              nextHandle := s1.nextHandle + 1,
              trace := s1.trace ++ [Effect.request s1.nextHandle],
              frame := s1.frame + 1 }

/-- The method `setText` of the copy; up to its call of `this.update()` it is the text of
`setText` in `src/script.js`. -/
def Assets.setText (R : Nat → Draw) (s : State) (oldText newText : Str) : Nat × State :=
  (s.nextPromise, Assets.update R (setTextPre R s oldText newText))

/-- A sequence of draws for comparing the two copies: draw number `n` is
`(16 n mod 64) / 64`, that is `0, 0.25, 0.5, 0.75, 0, …`. -/
def copyDraws : Nat → Draw := fun n => Draw.ofNat64 (n * 16)

/-- Every glyph stored in a cell of the queue is a unit of the alphabet. -/
def GlyphsOk (queue : List Cell) : Prop :=
  ∀ c ∈ queue, ∀ g, c.char = some g → g ∈ chars

end TextScramble

namespace Portfolio

open TextScramble (Str CodeUnit units)

/-- The method `s.includes(t)`: whether `t` occurs in `s` as a run of consecutive units. -/
def includes (s t : Str) : Bool := s.tails.any fun u => t.isPrefixOf u

/-- What the action of a command does when it is called. -/
inductive Action where
  /-- The assignment `window.location.href = target`. -/
  | href (target : Str)
  /-- The call `themeToggle.click()`. -/
  | toggleTheme
  /-- The function `openContactModal`. -/
  | openContactModal
  /-- The call `window.open(url, '_blank')`. -/
  | windowOpen (url : Str)
  deriving DecidableEq

/-- An entry of `commands`: `{ name, action }`. -/
structure Command where
  name : Str
  action : Action
  deriving DecidableEq

/-- The array `commands` of `src/script.js` (lines 422-433). -/
def commands : List Command :=
  [ { name := units "Home", action := Action.href (units "#home") },
    { name := units "About", action := Action.href (units "#about") },
    { name := units "Resume", action := Action.href (units "#resume") },
    { name := units "Skills", action := Action.href (units "#skills") },
    { name := units "Projects", action := Action.href (units "#projects") },
    { name := units "Toggle Theme", action := Action.toggleTheme },
    { name := units "Contact Me", action := Action.openContactModal },
    { name := units "View Source",
      action := Action.windowOpen (units "https://github.com/Cynthia-Motaung/portfolio") },
    { name := units "Open GitHub",
      action := Action.windowOpen (units "https://github.com/Cynthia-Motaung") },
    { name := units "Open LinkedIn",
      action := Action.windowOpen (units "https://www.linkedin.com/in/cynthia-motaung/") } ]

/-- An `li` child of the element `#command-results`: its text, its `data-index` and whether
it carries the class `selected`. -/
structure Li where
  textContent : Str
  index : Nat
  selected : Bool
  deriving DecidableEq

/-- The `forEach` of `renderCommands`, from index `index` on: one `li` per command, the one
at index `0` with the class `selected`. -/
def renderFrom : Nat → List Command → List Li
  | _, [] => []
  | index, cmd :: rest =>
    { textContent := cmd.name, index := index, selected := index == 0 } ::
      renderFrom (index + 1) rest

/-- The function `renderCommands(cmds)`, on the children of `#command-results`; `none` when
the page has no such element, and then nothing is done. -/
def renderCommands (commandResults : Option (List Li)) (cmds : List Command) :
    Option (List Li) :=
  match commandResults with
  | none => none
  | some _ => some (renderFrom 0 cmds)

/-- The `input` listener of `#command-input`, for the value `value` of the input;
`toLowerCase` is the method of that name of the host. -/
def inputListener (toLowerCase : Str → Str) (value : Str) (commandResults : Option (List Li)) :
    Option (List Li) :=
  let query := toLowerCase value
  let filteredCommands := commands.filter fun cmd => includes (toLowerCase cmd.name) query
  renderCommands commandResults filteredCommands

/-- Lower-casing of the ASCII letters, a `toLowerCase` for ASCII text. -/
def asciiLower (s : Str) : Str :=
  s.map fun u => if 65 ≤ u ∧ u ≤ 90 then u + 32 else u

/-- The command palette as the `keydown` listener of `#command-input` sees it: the `li`
children of `#command-results`, whether `#command-palette` carries the class `is-visible`
(`none`: the page has no such element), the value of the input, and the actions called so
far. -/
structure Palette where
  results : List Li
  visible : Option Bool
  value : Str
  ran : List Action
  deriving DecidableEq

/-- The call `commandResults.querySelector('.selected')`: the position of the first `li`
with the class `selected`. -/
def querySelected : List Li → Option Nat
  | [] => none
  | li :: rest => if li.selected then some 0 else (querySelected rest).map (· + 1)

/-- Adding (`true`) or removing (`false`) the class `selected` on the `li` at position `i`. -/
def setSelected : List Li → Nat → Bool → List Li
  | [], _, _ => []
  | li :: rest, 0, b => { li with selected := b } :: rest
  | li :: rest, i + 1, b => li :: setSelected rest i b

/-- The function `closeCommandPalette`. -/
def closeCommandPalette (p : Palette) : Palette :=
  match p.visible with
  | none => p
  | some _ => { p with visible := some false, value := [] }

/-- The last statement of the `keydown` listener: when `newSelected` is set, the class
`selected` moves from `selected`, if there is one, to `newSelected`. -/
def moveSelection (p : Palette) (selected : Option Nat) (newSelected : Nat) : Palette :=
  let results :=
    match selected with
    | some i => setSelected p.results i false
    | none => p.results
  { p with results := setSelected results newSelected true }

/-- The `keydown` listener of `#command-input`, for a key press with `e.key = key`. An `li`
is named by its position: `nextElementSibling` of position `i` is `i + 1` if that is a
position, `previousElementSibling` is `i - 1` if `i` is not `0`. -/
def keydownListener (key : Str) (p : Palette) : Palette :=
  if p.results.length = 0 then p
  else
    let selected := querySelected p.results
    if key = units "ArrowDown" then
      let newSelected :=
        match selected with
        | some i => if i + 1 < p.results.length then i + 1 else 0
        | none => 0
      moveSelection p selected newSelected
    else if key = units "ArrowUp" then
      let newSelected :=
        match selected with
        | some i => if 0 < i then i - 1 else p.results.length - 1
        | none => p.results.length - 1
      moveSelection p selected newSelected
    else if key = units "Enter" then
      match selected with
      | some i =>
        match p.results[i]? with
        | some li =>
          match commands.find? fun c => c.name == li.textContent with
          | some command => closeCommandPalette { p with ran := p.ran ++ [command.action] }
          | none => p
        | none => p
      | none => p
    else p

/-- Exactly one `li` carries the class `selected`, the one at position `i`. -/
def SelectedAt (results : List Li) (i : Nat) : Prop :=
  i < results.length ∧ ∀ (j : Nat) (li : Li), results[j]? = some li → (li.selected = true ↔ j = i)

/-- The caller's `this` and `arguments` of one call of the function that `throttle`
returns. -/
structure CallArgs where
  context : Nat
  args : List Nat
  deriving DecidableEq

/-- The closure that `throttle(func, limit)` creates, with its host: the variable
`inThrottle` (`none` while it is `undefined`), the timers set by `setTimeout` that have not
fired yet, each with its handle and delay, the host's counter for fresh handles, and the
calls of `func` made so far. -/
structure Throttle where
  inThrottle : Option Bool
  timers : List (Nat × Nat)
  nextTimer : Nat
  invoked : List CallArgs
  deriving DecidableEq

/-- The closure right after `throttle(func, limit)` returned. -/
def throttle : Throttle :=
  { inThrottle := none, timers := [], nextTimer := 1, invoked := [] }

/-- What `func` does during one call of it: it returns, or it throws, or it first calls
the throttled function itself, with `c`, and then goes on as `rest`, whether that call
returned or threw; `inner` is what `func` does if that call calls it. -/
inductive Behaviour where
  | returns
  | throws
  | reenter (c : CallArgs) (inner : Behaviour) (rest : Behaviour)
  deriving DecidableEq

/-- The body of the function that `throttle(func, limit)` returns, for a call with `c`, where
`apply` runs `func.apply(context, args)` and tells whether it threw. When `inThrottle` is
not `true`, `func` is called; if it returns, `inThrottle` is set and a timer of `limit` ms
is started; if it throws, the exception leaves the function before either. Returns the
state and whether the call threw. -/
def throttledWith (limit : Nat) (apply : Throttle → Throttle × Bool) (s : Throttle)
    (c : CallArgs) : Throttle × Bool :=
  if s.inThrottle = some true then (s, false)
  else
    let r := apply { s with invoked := s.invoked ++ [c] }
    if r.2 then (r.1, true)
    else
      ({ r.1 with inThrottle := some true,
                  timers := r.1.timers ++ [(r.1.nextTimer, limit)],
                  nextTimer := r.1.nextTimer + 1 }, false)

/-- One run of `func` with the given behaviour: the state it leaves and whether it threw. -/
def runFunc (limit : Nat) : Behaviour → Throttle → Throttle × Bool
  | Behaviour.returns, s => (s, false)
  | Behaviour.throws, s => (s, true)
  | Behaviour.reenter c inner rest, s =>
    runFunc limit rest (throttledWith limit (runFunc limit inner) s c).1

/-- One call of the function that `throttle(func, limit)` returned, with `c`, where `func`
behaves as `b` if it is called. -/
def throttled (limit : Nat) (s : Throttle) (c : CallArgs) (b : Behaviour) : Throttle :=
  (throttledWith limit (runFunc limit b) s c).1

/-- The host fires the timer with handle `h`: it leaves the list and its callback
`() => inThrottle = false` runs. -/
def timerFires (s : Throttle) (h : Nat) : Throttle :=
  { s with timers := s.timers.filter (fun t => t.1 ≠ h), inThrottle := some false }

/-- The states of the closure of `throttle(func, limit)` for a `func` that never calls the
throttled function itself: any interleaving of calls, during which `func` returns or
throws, and of firings of timers that are set. -/
inductive ThrottleReachable (limit : Nat) : Throttle → Prop where
  | init : ThrottleReachable limit throttle
  | call (s : Throttle) (c : CallArgs) (b : Behaviour) :
      ThrottleReachable limit s → b = Behaviour.returns ∨ b = Behaviour.throws →
      ThrottleReachable limit (throttled limit s c b)
  | fire (s : Throttle) (h : Nat) :
      ThrottleReachable limit s → h ∈ s.timers.map Prod.fst →
      ThrottleReachable limit (timerFires s h)

/-- A project card: its `data-category` (`none`: the attribute is missing) and its
`style.display`. -/
structure Card where
  category : Option Str
  display : Str
  deriving DecidableEq

/-- The string a value of `getAttribute` is converted to when `includes` takes it as its
argument: `null` reads `"null"`. -/
def argString : Option Str → Str
  | some v => v
  | none => units "null"

/-- The `forEach` over the project cards in the click listener of the filters. Each card is
hidden and then shown again if its category includes the filter value or the value is
`'all'`; on a card without `data-category` the call of `includes` throws and the loop stops
there. Returns the cards and whether a `TypeError` was thrown. -/
def filterCards (filterValue : Option Str) : List Card → List Card × Bool
  | [] => ([], false)
  | card :: rest =>
    let hidden := { card with display := units "none" }
    match card.category with
    | none => (hidden :: rest, true)
    | some category =>
      let shown :=
        if includes category (argString filterValue) || filterValue == some (units "all")
        then { hidden with display := units "block" }
        else hidden
      ((shown :: (filterCards filterValue rest).1), (filterCards filterValue rest).2)

/-- The click listener of `.project-filters` (lines 132-150 of `src/script.js`, the same
text as lines 419-437 of `src/assets/script/script.js`), on the project cards.
`targetButton` is `e.target.closest('button')` given by its `data-filter` attribute, `none`
when the click hit no button; the class `active` of the buttons is not part of the cards. -/
def filterClick (targetButton : Option (Option Str)) (cards : List Card) : List Card × Bool :=
  match targetButton with
  | none => (cards, false)
  | some filterValue => filterCards filterValue cards

/-- A `keydown` event, as far as the listeners read it: `e.key`, `e.metaKey`, `e.ctrlKey`. -/
structure KeyEvent where
  key : Str
  metaKey : Bool
  ctrlKey : Bool
  deriving DecidableEq

/-- The function `openCommandPalette`: on a page with the element `#command-palette` it shows
the palette and renders all commands. -/
def openCommandPalette (p : Palette) : Palette :=
  match p.visible with
  | none => p
  | some _ =>
    { p with visible := some true,
             results := (renderCommands (some p.results) commands).getD p.results }

/-- The `keydown` listener of `window` (lines 466-474 of `src/script.js`). -/
def windowKeydown (e : KeyEvent) (p : Palette) : Palette :=
  let p1 := if (e.metaKey || e.ctrlKey) && e.key == units "k" then openCommandPalette p else p
  if e.key == units "Escape" && p1.visible == some true then closeCommandPalette p1 else p1

/-- A key press in `#command-input`: the `keydown` event runs the listener of the input and
then, as it bubbles, the listener of `window`. -/
def keyPress (e : KeyEvent) (p : Palette) : Palette :=
  windowKeydown e (keydownListener e.key p)

/-- An `input` event of `#command-input`, fired by the host after a key press that changed
the value of the input to `value`: the `input` listener renders the filtered commands. -/
def inputEvent (toLowerCase : Str → Str) (value : Str) (p : Palette) : Palette :=
  { p with value := value,
           results := (inputListener toLowerCase value (some p.results)).getD p.results }

/-- The palette right after `openCommandPalette` on a page that has all its elements: all
commands are rendered. -/
def openedPalette : Palette :=
  { results := renderFrom 0 commands, visible := some true, value := [], ran := [] }

/-- What holds in every state of the closure of `throttle` when `func` never calls the
throttled function itself: `inThrottle` is `true` exactly while a timer is set, at most one
timer is set, and every timer was set by its own call of `func`. -/
structure ThrottleInv (s : Throttle) : Prop where
  flag_iff : s.inThrottle = some true ↔ s.timers ≠ []
  timers_le : s.timers.length ≤ 1
  invoked_ge : s.nextTimer ≤ s.invoked.length + 1

/-- A `func` for the examples that calls the throttled function once while it runs. -/
def reentrantOnce : Behaviour :=
  Behaviour.reenter { context := 0, args := [2] } Behaviour.returns Behaviour.returns

/-- The display of a card in the words of the claim: `'block'` when the filter value is
`'all'` or the category contains it, `'none'` otherwise. -/
def shownCard (v : Str) (card : Card) : Card :=
  { category := card.category,
    display :=
      if v = units "all" ∨ ∃ category, card.category = some category ∧ v <:+: category
      then units "block" else units "none" }

end Portfolio

/-! ## Lemmas and theorems -/

namespace TextScramble

theorem visit_queue_fixed (R : Nat → Draw) (f : Nat) (a : Loop) (c : Cell) :
    (visit R f a c).queue.map Cell.fixed = a.queue.map Cell.fixed ++ [c.fixed] := by
  unfold visit
  split_ifs <;> first | (split <;> simp [Cell.fixed]) | simp [Cell.fixed]

theorem foldl_visit_fixed (R : Nat → Draw) (f : Nat) (q : List Cell) (a : Loop) :
    (q.foldl (visit R f) a).queue.map Cell.fixed = a.queue.map Cell.fixed ++ q.map Cell.fixed := by
  induction q generalizing a with
  | nil => simp
  | cons c q ih => simp [ih, visit_queue_fixed]

theorem visit_complete (R : Nat → Draw) (f : Nat) (a : Loop) (c : Cell) :
    (visit R f a c).complete = a.complete + (if c.end_ ≤ f then 1 else 0) := by
  unfold visit
  split_ifs <;> first | (split <;> simp) | simp

theorem foldl_visit_complete (R : Nat → Draw) (f : Nat) (q : List Cell) (a : Loop) :
    (q.foldl (visit R f) a).complete = a.complete + q.countP (fun c => decide (c.end_ ≤ f)) := by
  induction q generalizing a with
  | nil => simp
  | cons c q ih =>
    simp only [List.foldl_cons, ih, visit_complete, List.countP_cons]
    split_ifs <;> simp_all <;> omega

theorem foldl_visit_settled (R : Nat → Draw) (f : Nat) (q : List Cell) (a : Loop)
    (h : ∀ c ∈ q, c.end_ ≤ f) :
    q.foldl (visit R f) a =
      { a with complete := a.complete + q.length,
               output := a.output ++ (q.map Cell.to_).flatten,
               queue := a.queue ++ q } := by
  induction q generalizing a with
  | nil => simp
  | cons c q ih =>
    have hc : c.end_ ≤ f := h c (List.mem_cons_self _ _)
    have hq : ∀ d ∈ q, d.end_ ≤ f := fun d hd => h d (List.mem_cons_of_mem _ hd)
    simp only [List.foldl_cons, ih _ hq]
    simp [visit, hc, Nat.add_assoc, Nat.add_comm 1]

theorem maxEnd_le_iff (q : List Cell) (f : Nat) : maxEnd q ≤ f ↔ ∀ c ∈ q, c.end_ ≤ f := by
  induction q with
  | nil => simp [maxEnd]
  | cons c q ih =>
    have : maxEnd (c :: q) = max c.end_ (maxEnd q) := rfl
    simp [this, ih]

theorem maxEnd_congr (q q' : List Cell) (h : q.map Cell.fixed = q'.map Cell.fixed) :
    maxEnd q = maxEnd q' := by
  have : q.map Cell.end_ = q'.map Cell.end_ := by
    have := congrArg (List.map (fun x : Str × Str × Nat × Nat => x.2.2.2)) h
    simpa [Cell.fixed, Function.comp_def] using this
  simp [maxEnd, this]

theorem map_to_congr (q q' : List Cell) (h : q.map Cell.fixed = q'.map Cell.fixed) :
    q.map Cell.to_ = q'.map Cell.to_ := by
  have := congrArg (List.map (fun x : Str × Str × Nat × Nat => x.2.1)) h
  simpa [Cell.fixed, Function.comp_def] using this

theorem loop_complete_eq_iff (R : Nat → Draw) (f : Nat) (q : List Cell) (u : Nat) :
    (loop R f q u).complete = (loop R f q u).queue.length ↔ maxEnd q ≤ f := by
  have hl : (loop R f q u).queue.length = q.length := by
    have := congrArg List.length (foldl_visit_fixed R f q { output := [], complete := 0, queue := [], used := u })
    simpa [loop] using this
  rw [hl, maxEnd_le_iff]
  simp only [loop, foldl_visit_complete, Nat.zero_add]
  rw [List.countP_eq_length]
  simp

theorem update_of_settled (R : Nat → Draw) (s : State) (h : maxEnd s.queue ≤ s.frame) :
    update R s =
      { s with trace := s.trace ++
          [Effect.write (s.queue.map Cell.to_).flatten, resolveEffect s.resolve] } := by
  have hl : loop R s.frame s.queue s.used =
      { output := (s.queue.map Cell.to_).flatten, complete := s.queue.length,
        queue := s.queue, used := s.used } := by
    simp [loop, foldl_visit_settled R s.frame s.queue _ ((maxEnd_le_iff _ _).1 h)]
  cases hp : s.resolve <;> simp [update, hl, hp, resolveEffect]

theorem update_of_unsettled (R : Nat → Draw) (s : State) (h : s.frame < maxEnd s.queue) :
    update R s =
      { s with queue := (loop R s.frame s.queue s.used).queue,
               used := (loop R s.frame s.queue s.used).used,
               frameRequest := some s.nextHandle,
               pending := s.pending ++ [s.nextHandle],
               nextHandle := s.nextHandle + 1,
               trace := s.trace ++ [Effect.write (loop R s.frame s.queue s.used).output,
                                    Effect.request s.nextHandle],
               frame := s.frame + 1 } := by
  have hne : ¬ (loop R s.frame s.queue s.used).complete
      = (loop R s.frame s.queue s.used).queue.length := by
    rw [loop_complete_eq_iff]; omega
  simp [update, hne]

theorem update_nextPromise (R : Nat → Draw) (s : State) :
    (update R s).nextPromise = s.nextPromise := by
  by_cases h : maxEnd s.queue ≤ s.frame
  · rw [update_of_settled R s h]
  · rw [update_of_unsettled R s (by omega)]

theorem update_resolve (R : Nat → Draw) (s : State) :
    (update R s).resolve = s.resolve := by
  by_cases h : maxEnd s.queue ≤ s.frame
  · rw [update_of_settled R s h]
  · rw [update_of_unsettled R s (by omega)]

theorem loop_queue_fixed (R : Nat → Draw) (f : Nat) (q : List Cell) (u : Nat) :
    (loop R f q u).queue.map Cell.fixed = q.map Cell.fixed := by
  simpa [loop] using
    foldl_visit_fixed R f q { output := [], complete := 0, queue := [], used := u }

theorem fillQueue_eq (R : Nat → Draw) (oldText newText : Str) (u : Nat) (n i : Nat)
    (q : List Cell) :
    fillQueue R oldText newText n i (u + 2 * i) q =
      (q ++ (List.range' i n).map (builtCell R oldText newText u), u + 2 * (i + n)) := by
  induction n generalizing i q with
  | zero => simp [fillQueue]
  | succ n ih =>
    have h2 : u + 2 * i + 2 = u + 2 * (i + 1) := by ring
    simp only [fillQueue, h2, ih, List.range'_succ, List.map_cons, List.append_assoc,
      List.singleton_append]
    refine Prod.ext ?_ ?_
    · simp [builtCell]
    · simp; ring

theorem fillQueue_zero (R : Nat → Draw) (oldText newText : Str) (u n : Nat) :
    fillQueue R oldText newText n 0 u [] =
      ((List.range n).map (builtCell R oldText newText u), u + 2 * n) := by
  have := fillQueue_eq R oldText newText u n 0 []
  simpa [List.range_eq_range'] using this

theorem flatten_charAt_range' (s : Str) (n i : Nat) (h : s.length ≤ i + n) :
    ((List.range' i n).map (charAt s)).flatten = s.drop i := by
  induction n generalizing i with
  | zero => simp at h; simp [List.drop_eq_nil_of_le h]
  | succ n ih =>
    have ih1 := ih (i + 1) (by omega)
    simp only [List.range'_succ, List.map_cons, List.flatten_cons, ih1]
    by_cases hi : i < s.length
    · simp [charAt, List.getElem?_eq_getElem hi]
    · have h1 : s.length ≤ i := by omega
      simp [charAt, List.getElem?_eq_none h1, List.drop_eq_nil_of_le h1,
        List.drop_eq_nil_of_le (Nat.le_succ_of_le h1)]

theorem flatten_charAt (s : Str) (n : Nat) (h : s.length ≤ n) :
    ((List.range n).map (charAt s)).flatten = s := by
  have := flatten_charAt_range' s n 0 (by omega)
  simpa [List.range_eq_range'] using this

theorem builtQueue_eq (R : Nat → Draw) (s : State) (oldText newText : Str) :
    builtQueue R s oldText newText =
      (List.range (max oldText.length newText.length)).map
        (builtCell R oldText newText s.used) := by
  simp [builtQueue, setTextPre, fillQueue_zero]

theorem builtQueue_to (R : Nat → Draw) (s : State) (oldText newText : Str) :
    ((builtQueue R s oldText newText).map Cell.to_).flatten = newText := by
  rw [builtQueue_eq, List.map_map]
  have : (Cell.to_ ∘ builtCell R oldText newText s.used) = charAt newText := by
    funext i; simp [builtCell]
  rw [this]
  exact flatten_charAt _ _ (le_max_right _ _)

theorem inv_init : Inv init := by
  constructor <;> simp [init]

theorem inv_update (R : Nat → Draw) (u : State) (hu : Ready u) : Inv (update R u) := by
  obtain ⟨p, hp, hfresh⟩ := hu.resolve_some
  by_cases h : maxEnd u.queue ≤ u.frame
  · rw [update_of_settled R u h]
    have hc := hu.count_le
    have ht := hu.trace_lt
    have hl := hu.resolve_lt
    have hn := hu.no_throw
    constructor
    · exact Or.inl hu.pending_eq
    · simp [hu.pending_eq]
    · exact hl
    · intro q hq
      simp only [List.mem_append, List.mem_cons, hp, resolveEffect] at hq
      rcases hq with hq | hq | hq | hq
      · exact ht q hq
      · cases hq
      · cases hq; exact hl _ hp
      · simp at hq
    · simp [hu.pending_eq]
    · intro q
      simp only [hp, resolveEffect, List.count_append, List.count_cons, List.count_nil]
      by_cases hqp : q = p
      · subst hqp
        have : List.count (Effect.resolve q) u.trace = 0 := List.count_eq_zero.2 hfresh
        simp [this]
      · have := hc q
        have hne : (Effect.resolve p == Effect.resolve q) = false := by
          simp; exact fun h => hqp h.symm
        simp [hne]; exact this
    · simp [hp, resolveEffect, hn]
  · rw [update_of_unsettled R u (by omega)]
    constructor
    · exact Or.inr ⟨u.nextHandle, by simp [hu.pending_eq], rfl⟩
    · simp [hu.pending_eq]
    · exact hu.resolve_lt
    · intro q hq
      simp only [List.mem_append, List.mem_cons] at hq
      rcases hq with hq | hq | hq | hq
      · exact hu.trace_lt q hq
      · cases hq
      · cases hq
      · simp at hq
    · intro _
      exact ⟨p, hp, by simp [hfresh]⟩
    · intro q
      have := hu.count_le q
      simpa [List.count_append, List.count_cons] using this
    · simp [hu.no_throw]

theorem ready_setTextPre (R : Nat → Draw) (s : State) (oldText newText : Str) (hs : Inv s) :
    Ready (setTextPre R s oldText newText) := by
  constructor
  · rcases hs.pending_eq with h | ⟨h, h1, h2⟩
    · cases hf : s.frameRequest <;> simp [setTextPre, cancelAnimationFrame, h, hf]
    · simp [setTextPre, cancelAnimationFrame, h1, h2]
  · refine ⟨s.nextPromise, rfl, fun hmem => ?_⟩
    exact Nat.lt_irrefl _ (hs.trace_lt _ hmem)
  · intro p hp
    simp only [setTextPre, Option.some.injEq] at hp
    simp only [setTextPre]; omega
  · intro p hp
    have := hs.trace_lt p hp
    simp only [setTextPre]; omega
  · exact hs.count_le
  · exact hs.no_throw

theorem ready_framePre (s : State) (h : Nat) (hs : Inv s) (hh : h ∈ s.pending) :
    Ready (framePre s h) := by
  have hne : s.pending ≠ [] := List.ne_nil_of_mem hh
  constructor
  · rcases hs.pending_eq with h0 | ⟨h', h1, _⟩
    · exact absurd h0 hne
    · rw [h1] at hh
      simp only [List.mem_singleton] at hh
      simp [framePre, h1, hh]
  · exact hs.in_flight hne
  · exact hs.resolve_lt
  · exact hs.trace_lt
  · exact hs.count_le
  · exact hs.no_throw

theorem inv_of_reachable (R : Nat → Draw) (s : State) (hs : Reachable R s) : Inv s := by
  induction hs with
  | init => exact inv_init
  | setText s oldText newText _ ih => exact inv_update R _ (ready_setTextPre R s _ _ ih)
  | frame s h _ hh ih => exact inv_update R _ (ready_framePre s h ih hh)

theorem mem_resolved (trace : List Effect) (p : Nat) :
    p ∈ resolved trace ↔ Effect.resolve p ∈ trace := by
  simp only [resolved, List.mem_filterMap]
  constructor
  · rintro ⟨e, he, h⟩
    cases e <;> simp at h
    subst h; exact he
  · intro h
    exact ⟨_, h, rfl⟩

theorem resolved_append (a b : List Effect) : resolved (a ++ b) = resolved a ++ resolved b := by
  simp [resolved, List.filterMap_append]

theorem active_update (R : Nat → Draw) (p : Nat) (q0 : List Cell) (rs : List Nat) (f : Nat)
    (u : State) (hu : Entering p q0 rs f u) (hf : f < maxEnd q0) :
    Active p q0 rs (f + 1) (update R u) := by
  have hm : maxEnd u.queue = maxEnd q0 := maxEnd_congr _ _ hu.fixed_eq
  rw [update_of_unsettled R u (by rw [hm, hu.frame_eq]; exact hf)]
  constructor
  · simp [hu.frame_eq]
  · exact ⟨u.nextHandle, by simp [hu.pending_eq]⟩
  · simp only [loop_queue_fixed]; exact hu.fixed_eq
  · exact hu.resolve_eq
  · simp only [resolved_append, hu.resolved_eq]
    simp [resolved]

theorem done_update (R : Nat → Draw) (p : Nat) (q0 : List Cell) (rs : List Nat) (u : State)
    (hu : Entering p q0 rs (maxEnd q0) u) :
    Done p q0 rs (q0.map Cell.to_).flatten (update R u) := by
  have hm : maxEnd u.queue = maxEnd q0 := maxEnd_congr _ _ hu.fixed_eq
  rw [update_of_settled R u (by rw [hm, hu.frame_eq])]
  constructor
  · exact hu.frame_eq
  · exact hu.pending_eq
  · exact hu.fixed_eq
  · exact hu.resolve_eq
  · refine ⟨u.trace, ?_, hu.resolved_eq⟩
    simp [hu.resolve_eq, resolveEffect, map_to_congr _ _ hu.fixed_eq]

theorem entering_of_active (R : Nat → Draw) (p : Nat) (q0 : List Cell) (rs : List Nat)
    (f : Nat) (t : State) (ht : Active p q0 rs f t) :
    ∃ u, nextFrame R t = update R u ∧ Entering p q0 rs f u := by
  obtain ⟨h, hh⟩ := ht.pending_eq
  refine ⟨framePre t h, by simp [nextFrame, hh, frameCallback], ?_⟩
  constructor
  · exact ht.frame_eq
  · simp [framePre, hh]
  · exact ht.fixed_eq
  · exact ht.resolve_eq
  · exact ht.resolved_eq

theorem entering_setTextPre (R : Nat → Draw) (s : State) (oldText newText : Str)
    (hs : Inv s) :
    Entering s.nextPromise (builtQueue R s oldText newText) (resolved s.trace) 0
      (setTextPre R s oldText newText) := by
  have hr := ready_setTextPre R s oldText newText hs
  exact ⟨rfl, hr.pending_eq, rfl, rfl, rfl⟩

theorem fresh_promise (s : State) (hs : Inv s) : s.nextPromise ∉ resolved s.trace := by
  rw [mem_resolved]
  exact fun h => Nat.lt_irrefl _ (hs.trace_lt _ h)

theorem ticks_succ (R : Nat → Draw) (s : State) (oldText newText : Str) (k : Nat) :
    ticks R s oldText newText (k + 1) = nextFrame R (ticks R s oldText newText k) := by
  simp [ticks, Function.iterate_succ_apply']

theorem ticks_active (R : Nat → Draw) (s : State) (oldText newText : Str) (hs : Inv s)
    (k : Nat) (hk : k < maxEnd (builtQueue R s oldText newText)) :
    Active s.nextPromise (builtQueue R s oldText newText) (resolved s.trace) (k + 1)
      (ticks R s oldText newText k) := by
  induction k with
  | zero =>
    exact active_update R _ _ _ 0 _ (entering_setTextPre R s oldText newText hs) hk
  | succ k ih =>
    obtain ⟨u, hu, he⟩ := entering_of_active R _ _ _ _ _ (ih (by omega))
    rw [ticks_succ, hu]
    exact active_update R _ _ _ (k + 1) u he hk

theorem ticks_done (R : Nat → Draw) (s : State) (oldText newText : Str) (hs : Inv s) :
    Done s.nextPromise (builtQueue R s oldText newText) (resolved s.trace) newText
      (ticks R s oldText newText (maxEnd (builtQueue R s oldText newText))) := by
  have key : ∀ m, m = maxEnd (builtQueue R s oldText newText) →
      Done s.nextPromise (builtQueue R s oldText newText) (resolved s.trace)
        ((builtQueue R s oldText newText).map Cell.to_).flatten
        (ticks R s oldText newText m) := by
    intro m hm
    cases m with
    | zero =>
      have he := entering_setTextPre R s oldText newText hs
      rw [hm] at he
      exact done_update R _ _ _ _ he
    | succ k =>
      obtain ⟨u, hu, he⟩ := entering_of_active R _ _ _ _ _
        (ticks_active R s oldText newText hs k (by omega))
      rw [ticks_succ, hu]
      rw [hm] at he
      exact done_update R _ _ _ u he
  have := key _ rfl
  rwa [builtQueue_to] at this

theorem ticks_after (R : Nat → Draw) (s : State) (oldText newText : Str) (m j : Nat)
    (h : (ticks R s oldText newText m).pending = []) :
    ticks R s oldText newText (m + j) = ticks R s oldText newText m := by
  induction j with
  | zero => rfl
  | succ j ih =>
    rw [← Nat.add_assoc, ticks_succ, ih]
    simp [nextFrame, h]

theorem resolved_done (p : Nat) (q0 : List Cell) (rs : List Nat) (text : Str) (t : State)
    (h : Done p q0 rs text t) : resolved t.trace = rs ++ [p] := by
  obtain ⟨pre, h1, h2⟩ := h.trace_eq
  rw [h1, resolved_append, h2]
  simp [resolved]

theorem Draw.lt (r : Draw) : r.num < r.den :=
  Nat.lt_of_lt_of_le r.num_lt (Nat.pow_le_pow_right (by decide) r.exp_ge)

theorem roundShift_ge (q s : Nat) : q / 2 ^ s ≤ roundShift q s := by
  unfold roundShift
  split_ifs <;> omega

theorem roundShift_mul_le (q s : Nat) : 2 * (roundShift q s * 2 ^ s) ≤ 2 * q + 2 ^ s := by
  have hq := Nat.div_add_mod q (2 ^ s)
  have hm : 2 ^ s * (q / 2 ^ s) = q / 2 ^ s * 2 ^ s := Nat.mul_comm _ _
  unfold roundShift
  split_ifs with h1 h2 h3
  · omega
  · rw [Nat.add_mul]; omega
  · omega
  · rw [Nat.add_mul]; omega

theorem excessBitsAux_spec (fuel q : Nat) (h : q ≤ fuel) :
    q < 2 ^ 53 * 2 ^ excessBitsAux fuel q ∧
    (0 < excessBitsAux fuel q → 2 ^ 52 * 2 ^ excessBitsAux fuel q ≤ q) := by
  induction fuel generalizing q with
  | zero =>
    have : q = 0 := by omega
    subst this
    simp [excessBitsAux]
  | succ fuel ih =>
    have e : excessBitsAux (fuel + 1) q =
        if q < 2 ^ 53 then 0 else excessBitsAux fuel (q / 2) + 1 := rfl
    rw [e]
    by_cases hq : q < 2 ^ 53
    · rw [if_pos hq]
      exact ⟨by rw [Nat.pow_zero, Nat.mul_one]; exact hq, fun h0 => absurd h0 (Nat.lt_irrefl 0)⟩
    · rw [if_neg hq]
      have h53 : (2 : Nat) ^ 53 = 2 * 2 ^ 52 := by norm_num
      have hge : 2 ^ 53 ≤ q := Nat.le_of_not_lt hq
      have h2 : q / 2 ≤ fuel := by
        have : (0 : Nat) < 2 ^ 52 := Nat.pos_of_ne_zero (by norm_num)
        omega
      obtain ⟨i1, i2⟩ := ih (q / 2) h2
      rw [Nat.pow_succ]
      refine ⟨by omega, fun _ => ?_⟩
      by_cases hg : 0 < excessBitsAux fuel (q / 2)
      · have := i2 hg
        omega
      · have : excessBitsAux fuel (q / 2) = 0 := by omega
        rw [this]
        omega

theorem shift_lt (r : Draw) (n : Nat) (hn : 0 < n) :
    2 ^ excessBits (r.num * n) < 2 * n := by
  obtain ⟨_, h2⟩ := excessBitsAux_spec (r.num * n) (r.num * n) (Nat.le_refl _)
  by_cases h : 0 < excessBits (r.num * n)
  · have h1 := h2 h
    have h3 : r.num * n < 2 ^ 53 * n := Nat.mul_lt_mul_of_pos_right r.num_lt hn
    have h5 : (2 : Nat) ^ 53 = 2 * 2 ^ 52 := by norm_num
    have h6 : 2 ^ 52 * 2 ^ excessBits (r.num * n) < 2 ^ 52 * (2 * n) := by
      calc 2 ^ 52 * 2 ^ excessBits (r.num * n) ≤ r.num * n := h1
        _ < 2 ^ 53 * n := h3
        _ = 2 ^ 52 * (2 * n) := by rw [h5]; ring
    exact Nat.lt_of_mul_lt_mul_left h6
  · have : excessBits (r.num * n) = 0 := by omega
    rw [this]; omega

theorem floorMul_lt (r : Draw) (n : Nat) (hn : 0 < n) : r.floorMul n < n := by
  have hd : 0 < r.den := Nat.pos_of_ne_zero (by simp [Draw.den])
  have h1 := roundShift_mul_le (r.num * n) (excessBits (r.num * n))
  have h2 := shift_lt r n hn
  have h3 : r.num * n + n ≤ r.den * n := by
    have : r.num + 1 ≤ r.den := r.lt
    calc r.num * n + n = (r.num + 1) * n := by ring
      _ ≤ r.den * n := Nat.mul_le_mul_right n this
  unfold Draw.floorMul
  rw [Nat.div_lt_iff_lt_mul hd]
  have h4 : n * r.den = r.den * n := Nat.mul_comm _ _
  omega

theorem builtCell_end_le (R : Nat → Draw) (oldText newText : Str) (u i : Nat) :
    (builtCell R oldText newText u i).end_ ≤ 78 := by
  have h1 := floorMul_lt (R (u + 2 * i)) 40 (by decide)
  have h2 := floorMul_lt (R (u + 2 * i + 1)) 40 (by decide)
  simp only [builtCell]; omega

theorem maxEnd_builtQueue_lt (R : Nat → Draw) (s : State) (oldText newText : Str) :
    maxEnd (builtQueue R s oldText newText) + 1 ≤ max oldText.length newText.length + 78 := by
  by_cases h0 : max oldText.length newText.length = 0
  · have : builtQueue R s oldText newText = [] := by rw [builtQueue_eq, h0]; rfl
    rw [this, h0]; decide
  · have : maxEnd (builtQueue R s oldText newText) ≤ 78 := by
      rw [maxEnd_le_iff, builtQueue_eq]
      intro c hc
      obtain ⟨i, _, rfl⟩ := List.mem_map.1 hc
      exact builtCell_end_le R oldText newText s.used i
    omega

/-- C1 (final content): from every reachable state, for every surface text `oldText`, every
`newText` and every sequence of draws, the tick that resolves the promise returned by
`setText` is tick number `maxEnd` of the built queue; the trace then ends with the write of
exactly `newText` followed by the resolve, that promise was not resolved before, and on
that tick every cell is past its `end`, so each one is emitted as its plain `to` and none
inside the noise markup. -/
theorem final_write_eq_target (R : Nat → Draw) (s : State) (oldText newText : Str)
    (hs : Reachable R s) :
    (∃ pre, (ticks R s oldText newText (maxEnd (builtQueue R s oldText newText))).trace =
        pre ++ [Effect.write newText, Effect.resolve (setText R s oldText newText).1] ∧
      Effect.resolve (setText R s oldText newText).1 ∉ pre) ∧
    (∀ c ∈ (ticks R s oldText newText (maxEnd (builtQueue R s oldText newText))).queue,
      c.end_ ≤ (ticks R s oldText newText (maxEnd (builtQueue R s oldText newText))).frame) := by
  have hi := inv_of_reachable R s hs
  have hd := ticks_done R s oldText newText hi
  refine ⟨?_, ?_⟩
  · obtain ⟨pre, h1, h2⟩ := hd.trace_eq
    refine ⟨pre, h1, ?_⟩
    rw [← mem_resolved, h2]
    exact fresh_promise s hi
  · rw [← maxEnd_le_iff, maxEnd_congr _ _ hd.fixed_eq, hd.frame_eq]

theorem final_write_eq_target_witness :
    Reachable sampleDraws init ∧
    (∃ pre, (ticks sampleDraws init (units "Hello") (units "Hi")
          (maxEnd (builtQueue sampleDraws init (units "Hello") (units "Hi")))).trace =
        pre ++ [Effect.write (units "Hi"),
          Effect.resolve (setText sampleDraws init (units "Hello") (units "Hi")).1] ∧
      Effect.resolve (setText sampleDraws init (units "Hello") (units "Hi")).1 ∉ pre) :=
  ⟨Reachable.init,
    (final_write_eq_target sampleDraws init (units "Hello") (units "Hi") Reachable.init).1⟩

/-- C2 (termination): from every reachable state, for all texts and draws, `setText` builds
`max (len oldText) (len newText)` cells and the task resolves its promise on its `n`-th
tick, the synchronous tick of `setText` counted as the first, where `n` is the largest `end`
of the built cells plus one and `n ≤ max (len oldText) (len newText) + 78`. Each earlier
tick `k` (counted from `0`) keeps the built cells with their `from`, `to`, `start` and
`end`, finds some built cell with `end > k`, leaves the promise unresolved, schedules the
next tick and leaves `frame = k + 1`; the `n`-th tick runs at `frame = n - 1`, on the built
cells again, and there every built cell satisfies `end ≤ frame`. -/
theorem resolves_within_bound (R : Nat → Draw) (s : State) (oldText newText : Str)
    (hs : Reachable R s) :
    ∃ n, 1 ≤ n ∧ n ≤ max oldText.length newText.length + 78 ∧
      n = maxEnd (builtQueue R s oldText newText) + 1 ∧
      (builtQueue R s oldText newText).length = max oldText.length newText.length ∧
      Effect.resolve (setText R s oldText newText).1 ∈
        (ticks R s oldText newText (n - 1)).trace ∧
      (ticks R s oldText newText (n - 1)).frame = n - 1 ∧
      (ticks R s oldText newText (n - 1)).queue.map Cell.fixed =
        (builtQueue R s oldText newText).map Cell.fixed ∧
      (∀ c ∈ builtQueue R s oldText newText,
        c.end_ ≤ (ticks R s oldText newText (n - 1)).frame) ∧
      (∀ c ∈ (ticks R s oldText newText (n - 1)).queue,
        c.end_ ≤ (ticks R s oldText newText (n - 1)).frame) ∧
      (∀ k, k < n - 1 →
        Effect.resolve (setText R s oldText newText).1 ∉
          (ticks R s oldText newText k).trace ∧
        (ticks R s oldText newText k).pending.length = 1 ∧
        (ticks R s oldText newText k).frame = k + 1 ∧
        (ticks R s oldText newText k).queue.map Cell.fixed =
          (builtQueue R s oldText newText).map Cell.fixed ∧
        ∃ c ∈ builtQueue R s oldText newText, k < c.end_) := by
  have hi := inv_of_reachable R s hs
  have hd := ticks_done R s oldText newText hi
  refine ⟨maxEnd (builtQueue R s oldText newText) + 1, by omega,
    maxEnd_builtQueue_lt R s oldText newText, rfl, by simp [builtQueue_eq],
    ?_, ?_, ?_, ?_, ?_, ?_⟩
  · rw [Nat.add_sub_cancel, ← mem_resolved, resolved_done _ _ _ _ _ hd]
    simp [setText]
  · rw [Nat.add_sub_cancel]; exact hd.frame_eq
  · rw [Nat.add_sub_cancel]; exact hd.fixed_eq
  · rw [Nat.add_sub_cancel, ← maxEnd_le_iff, hd.frame_eq]
  · rw [Nat.add_sub_cancel, ← maxEnd_le_iff, maxEnd_congr _ _ hd.fixed_eq, hd.frame_eq]
  · intro k hk
    rw [Nat.add_sub_cancel] at hk
    have ha := ticks_active R s oldText newText hi k hk
    refine ⟨?_, ?_, ha.frame_eq, ha.fixed_eq, ?_⟩
    · rw [← mem_resolved, ha.resolved_eq]
      exact fresh_promise s hi
    · obtain ⟨h, hh⟩ := ha.pending_eq
      simp [hh]
    · by_contra hc
      have hall : ∀ c ∈ builtQueue R s oldText newText, c.end_ ≤ k := by
        intro c hcm
        by_contra hlt
        exact hc ⟨c, hcm, by omega⟩
      have := (maxEnd_le_iff _ _).2 hall
      omega

theorem resolves_within_bound_witness :
    Reachable sampleDraws init ∧
    ∃ n, 1 ≤ n ∧ n ≤ max (units "Hello").length (units "Hi").length + 78 ∧
      n = maxEnd (builtQueue sampleDraws init (units "Hello") (units "Hi")) + 1 ∧
      (builtQueue sampleDraws init (units "Hello") (units "Hi")).length =
        max (units "Hello").length (units "Hi").length ∧
      Effect.resolve (setText sampleDraws init (units "Hello") (units "Hi")).1 ∈
        (ticks sampleDraws init (units "Hello") (units "Hi") (n - 1)).trace :=
  ⟨Reachable.init,
    (resolves_within_bound sampleDraws init (units "Hello") (units "Hi") Reachable.init).imp
      fun _ h => ⟨h.1, h.2.1, h.2.2.1, h.2.2.2.1, h.2.2.2.2.1⟩⟩

/-- C3 (single resolution): from every reachable state, for the task started by `setText`
and left to run, with `m` the largest `end` of its queue (`0` for no cells): the ticks at
the frames below `m` resolve nothing and each leaves a tick scheduled, at none of these
frames are all cells settled; the tick at frame `m` writes and then calls `resolve`, with
no argument, on the promise that `setText` returned, which had not been resolved before;
it leaves nothing scheduled, so no further tick runs, and at every later time this
promise has been resolved exactly once. -/
theorem resolves_exactly_once (R : Nat → Draw) (s : State) (oldText newText : Str)
    (hs : Reachable R s) :
    (∀ k, k < maxEnd (builtQueue R s oldText newText) →
      resolved (ticks R s oldText newText k).trace = resolved s.trace ∧
      (ticks R s oldText newText k).pending ≠ [] ∧
      ¬ (∀ c ∈ builtQueue R s oldText newText, c.end_ ≤ k)) ∧
    (setText R s oldText newText).1 ∉ resolved s.trace ∧
    (∃ pre, (ticks R s oldText newText (maxEnd (builtQueue R s oldText newText))).trace =
        pre ++ [Effect.write newText, Effect.resolve (setText R s oldText newText).1] ∧
      resolved pre = resolved s.trace) ∧
    (ticks R s oldText newText (maxEnd (builtQueue R s oldText newText))).frame =
      maxEnd (builtQueue R s oldText newText) ∧
    (∀ c ∈ (ticks R s oldText newText (maxEnd (builtQueue R s oldText newText))).queue,
      c.end_ ≤ maxEnd (builtQueue R s oldText newText)) ∧
    (ticks R s oldText newText (maxEnd (builtQueue R s oldText newText))).pending = [] ∧
    (∀ j, ticks R s oldText newText (maxEnd (builtQueue R s oldText newText) + j) =
        ticks R s oldText newText (maxEnd (builtQueue R s oldText newText)) ∧
      (ticks R s oldText newText (maxEnd (builtQueue R s oldText newText) + j)).trace.count
        (Effect.resolve (setText R s oldText newText).1) = 1) := by
  have hi := inv_of_reachable R s hs
  have hd := ticks_done R s oldText newText hi
  have hfresh := fresh_promise s hi
  refine ⟨?_, hfresh, hd.trace_eq, hd.frame_eq, ?_, hd.pending_eq, ?_⟩
  · intro k hk
    have ha := ticks_active R s oldText newText hi k hk
    refine ⟨ha.resolved_eq, ?_, ?_⟩
    · obtain ⟨h, hh⟩ := ha.pending_eq
      simp [hh]
    · rw [← maxEnd_le_iff]; omega
  · rw [← maxEnd_le_iff, maxEnd_congr _ _ hd.fixed_eq]
  · intro j
    have hafter := ticks_after R s oldText newText _ j hd.pending_eq
    refine ⟨hafter, ?_⟩
    rw [hafter]
    obtain ⟨pre, h1, h2⟩ := hd.trace_eq
    have h0 : List.count (Effect.resolve s.nextPromise) pre = 0 := by
      rw [List.count_eq_zero, ← mem_resolved, h2]; exact hfresh
    rw [h1]
    simp [setText, List.count_append, List.count_cons, h0]

theorem resolves_exactly_once_witness :
    Reachable sampleDraws init ∧
    (ticks sampleDraws init [] (units "Hi")
      (maxEnd (builtQueue sampleDraws init [] (units "Hi")))).pending = [] ∧
    (∀ j, (ticks sampleDraws init [] (units "Hi")
        (maxEnd (builtQueue sampleDraws init [] (units "Hi")) + j)).trace.count
          (Effect.resolve (setText sampleDraws init [] (units "Hi")).1) = 1) :=
  ⟨Reachable.init,
    (resolves_exactly_once sampleDraws init [] (units "Hi") Reachable.init).2.2.2.2.2.1,
    fun j =>
      ((resolves_exactly_once sampleDraws init [] (units "Hi") Reachable.init).2.2.2.2.2.2 j).2⟩

theorem past_update (R : Nat → Draw) (p H : Nat) (u : State) (hu : Past p H u) :
    Past p H (update R u) := by
  by_cases h : maxEnd u.queue ≤ u.frame
  · rw [update_of_settled R u h]
    refine ⟨?_, hu.resolve_gt, hu.promise_gt, hu.pending_ge, hu.handle_ge⟩
    intro hmem
    simp only [List.mem_append, List.mem_cons] at hmem
    rcases hmem with hmem | hmem | hmem | hmem
    · exact hu.unresolved hmem
    · cases hmem
    · cases hr : u.resolve with
      | none => rw [hr] at hmem; cases hmem
      | some q =>
        rw [hr] at hmem
        simp only [resolveEffect, Effect.resolve.injEq] at hmem
        have := hu.resolve_gt q hr
        omega
    · simp at hmem
  · rw [update_of_unsettled R u (by omega)]
    refine ⟨?_, hu.resolve_gt, hu.promise_gt, ?_, ?_⟩
    · simp [hu.unresolved]
    · intro h' hh'
      simp only [List.mem_append, List.mem_singleton] at hh'
      rcases hh' with hh' | hh'
      · exact hu.pending_ge h' hh'
      · rw [hh']; exact hu.handle_ge
    · have := hu.handle_ge
      simp only; omega

theorem past_steps (R : Nat → Draw) (p H : Nat) (s t : State) (hs : Past p H s)
    (ht : Steps R s t) : Past p H t := by
  induction ht with
  | refl => exact hs
  | setText t oldText newText _ ih =>
    apply past_update
    refine ⟨ih.unresolved, ?_, ?_, ?_, ih.handle_ge⟩
    · intro q hq
      simp only [setTextPre, Option.some.injEq] at hq
      have := ih.promise_gt
      omega
    · have := ih.promise_gt
      simp only [setTextPre]; omega
    · intro h hh
      apply ih.pending_ge
      cases hf : t.frameRequest with
      | none => simpa [setTextPre, cancelAnimationFrame, hf] using hh
      | some g =>
        simp only [setTextPre, cancelAnimationFrame, hf, List.mem_filter] at hh
        exact hh.1
  | frame t h _ _ ih =>
    apply past_update
    refine ⟨ih.unresolved, ih.resolve_gt, ih.promise_gt, ?_, ih.handle_ge⟩
    intro h' hh'
    simp only [framePre, List.mem_filter] at hh'
    exact ih.pending_ge h' hh'.1

theorem reachable_steps (R : Nat → Draw) (s t : State) (hs : Reachable R s)
    (ht : Steps R s t) : Reachable R t := by
  induction ht with
  | refl => exact hs
  | setText t oldText newText _ ih => exact Reachable.setText t oldText newText ih
  | frame t h _ hh ih => exact Reachable.frame t h ih hh

/-- C4, as the code has it: from every reachable state, for all texts and draws, after
`setText(A)` and, before any frame callback, `setText(B)`, the promises resolved over the
whole run are: the one of `A`, once and inside `setText(A)`, exactly when the synchronous
first tick of `A` finds every cell settled (no cell has `end > 0`); then the one of `B`,
once, on the tick at frame `maxEnd` of the queue of `B`, right after the write of exactly
`B`. When some cell of `A` has `end > 0`, the only promise resolved is the one of `B`. -/
theorem abandonment_resolved (R : Nat → Draw) (s : State) (oldA A oldB B : Str)
    (hs : Reachable R s) :
    (setText R s oldA A).1 ≠ (setText R (setText R s oldA A).2 oldB B).1 ∧
    (setText R s oldA A).1 ∉ resolved s.trace ∧
    (∀ k, k < maxEnd (builtQueue R (setText R s oldA A).2 oldB B) →
      resolved (ticks R (setText R s oldA A).2 oldB B k).trace =
        resolved s.trace ++
          (if maxEnd (builtQueue R s oldA A) = 0 then [(setText R s oldA A).1] else [])) ∧
    (∀ j, resolved (ticks R (setText R s oldA A).2 oldB B
        (maxEnd (builtQueue R (setText R s oldA A).2 oldB B) + j)).trace =
      resolved s.trace ++
        (if maxEnd (builtQueue R s oldA A) = 0 then [(setText R s oldA A).1] else []) ++
        [(setText R (setText R s oldA A).2 oldB B).1]) ∧
    (∀ j, ∃ pre, (ticks R (setText R s oldA A).2 oldB B
        (maxEnd (builtQueue R (setText R s oldA A).2 oldB B) + j)).trace =
      pre ++ [Effect.write B, Effect.resolve (setText R (setText R s oldA A).2 oldB B).1]) := by
  have hi := inv_of_reachable R s hs
  have hs1 : Reachable R (setText R s oldA A).2 := Reachable.setText s oldA A hs
  have hi1 := inv_of_reachable R _ hs1
  have hd := ticks_done R (setText R s oldA A).2 oldB B hi1
  have hA : resolved (setText R s oldA A).2.trace = resolved s.trace ++
      (if maxEnd (builtQueue R s oldA A) = 0 then [(setText R s oldA A).1] else []) := by
    by_cases h0 : maxEnd (builtQueue R s oldA A) = 0
    · have hdA := ticks_done R s oldA A hi
      rw [h0] at hdA
      have := resolved_done _ _ _ _ _ hdA
      simpa [h0, ticks, setText] using this
    · have haA := ticks_active R s oldA A hi 0 (by omega)
      have := haA.resolved_eq
      simpa [h0, ticks] using this
  have hpA : (setText R s oldA A).2.nextPromise = s.nextPromise + 1 := by
    simp only [setText, update_nextPromise]; rfl
  refine ⟨?_, fresh_promise s hi, ?_, ?_, ?_⟩
  · show s.nextPromise ≠ (setText R s oldA A).2.nextPromise
    rw [hpA]; omega
  · intro k hk
    rw [(ticks_active R _ oldB B hi1 k hk).resolved_eq, hA]
  · intro j
    rw [ticks_after R _ oldB B _ j hd.pending_eq, resolved_done _ _ _ _ _ hd, hA]
    rfl
  · intro j
    rw [ticks_after R _ oldB B _ j hd.pending_eq]
    obtain ⟨pre, h1, _⟩ := hd.trace_eq
    exact ⟨pre, h1⟩

/-- C5 (superseded tasks are abandoned): let a reachable state hold the task of promise `p`
in flight, its next tick scheduled (so `p` is unresolved). After a call of `setText`, in
every state that follows under any interleaving of `setText` calls and frame callbacks,
`resolve` has not been called on `p`, the instance no longer holds the resolver of `p`,
so every later tick runs for another task, and the callback that was scheduled for the
old task is not scheduled, so it never runs. -/
theorem superseded_never_resolves (R : Nat → Draw) (s : State) (p : Nat)
    (hs : Reachable R s) (hp : s.resolve = some p) (hpend : s.pending ≠ [])
    (oldText newText : Str) (t : State) (ht : Steps R (setText R s oldText newText).2 t) :
    Effect.resolve p ∉ s.trace ∧ Effect.resolve p ∉ t.trace ∧ t.resolve ≠ some p ∧
    (∀ h ∈ s.pending, h ∉ t.pending) ∧ t.pending.length ≤ 1 := by
  have hi := inv_of_reachable R s hs
  obtain ⟨q, hq, hun⟩ := hi.in_flight hpend
  have hqp : q = p := by rw [hp] at hq; exact (Option.some.inj hq).symm
  subst hqp
  have hr := ready_setTextPre R s oldText newText hi
  have hpre : Past q s.nextHandle (setTextPre R s oldText newText) := by
    refine ⟨hun, ?_, ?_, ?_, Nat.le_refl _⟩
    · intro q' hq'
      simp only [setTextPre, Option.some.injEq] at hq'
      have := hi.resolve_lt q hp
      omega
    · have := hi.resolve_lt q hp
      simp only [setTextPre]; omega
    · simp [hr.pending_eq]
  have hpast := past_steps R q s.nextHandle _ t (past_update R _ _ _ hpre) ht
  have hit := inv_of_reachable R t
    (reachable_steps R _ t (Reachable.setText s oldText newText hs) ht)
  refine ⟨hun, hpast.unresolved, ?_, ?_, ?_⟩
  · intro h
    exact Nat.lt_irrefl _ (hpast.resolve_gt q h)
  · intro h hh hht
    have h1 := hi.handle_lt h hh
    have h2 := hpast.pending_ge h hht
    omega
  · rcases hit.pending_eq with h | ⟨h, h1, _⟩
    · simp [h]
    · simp [h1]

/-- C6 (at most one scheduled tick): in every state reachable by any interleaving of
`setText` calls and frame callbacks, at most one frame callback is scheduled. -/
theorem pending_length_le_one (R : Nat → Draw) (s : State) (hs : Reachable R s) :
    s.pending.length ≤ 1 := by
  rcases (inv_of_reachable R s hs).pending_eq with h | ⟨h, h1, _⟩
  · simp [h]
  · simp [h1]

theorem abandonment_resolved_witness :
    Reachable sampleDraws init ∧
    ∀ j, resolved (ticks sampleDraws (setText sampleDraws init [] (units "Hello")).2
        (units "Hello") (units "Hi")
        (maxEnd (builtQueue sampleDraws (setText sampleDraws init [] (units "Hello")).2
          (units "Hello") (units "Hi")) + j)).trace =
      resolved init.trace ++
        (if maxEnd (builtQueue sampleDraws init [] (units "Hello")) = 0
          then [(setText sampleDraws init [] (units "Hello")).1] else []) ++
        [(setText sampleDraws (setText sampleDraws init [] (units "Hello")).2
          (units "Hello") (units "Hi")).1] :=
  ⟨Reachable.init,
    (abandonment_resolved sampleDraws init [] (units "Hello") (units "Hello") (units "Hi")
      Reachable.init).2.2.2.1⟩

/-- C4 fails as stated: on an empty surface, `setText("")` builds no cell, so its
synchronous tick resolves its promise at once; after `setText("Hi")` and the frames of that
task, two promises have been resolved, the one of `""` first. -/
theorem abandonment_counterexample :
    (setText sampleDraws init [] []).1 = 0 ∧
    (setText sampleDraws (setText sampleDraws init [] []).2 [] (units "Hi")).1 = 1 ∧
    resolved (setText sampleDraws init [] []).2.trace = [0] ∧
    resolved (ticks sampleDraws (setText sampleDraws init [] []).2 [] (units "Hi") 19).trace
      = [0, 1] := by
  decide

theorem superseded_never_resolves_witness :
    Reachable sampleDraws (setText sampleDraws init [] (units "Hello")).2 ∧
    (setText sampleDraws init [] (units "Hello")).2.resolve = some 0 ∧
    (setText sampleDraws init [] (units "Hello")).2.pending ≠ [] ∧
    Effect.resolve 0 ∉
      (nextFrame sampleDraws (setText sampleDraws
        (setText sampleDraws init [] (units "Hello")).2 (units "Hello") (units "Hi")).2).trace :=
  ⟨Reachable.setText init [] (units "Hello") Reachable.init, by decide, by decide,
    (superseded_never_resolves sampleDraws (setText sampleDraws init [] (units "Hello")).2 0
      (Reachable.setText init [] (units "Hello") Reachable.init) (by decide) (by decide)
      (units "Hello") (units "Hi") _
      (Steps.frame _ 2 (Steps.refl) (by decide))).2.1⟩

theorem pending_length_le_one_witness :
    Reachable sampleDraws (setText sampleDraws init [] (units "Hi")).2 ∧
    (setText sampleDraws init [] (units "Hi")).2.pending.length ≤ 1 :=
  ⟨Reachable.setText init [] (units "Hi") Reachable.init,
    pending_length_le_one sampleDraws _ (Reachable.setText init [] (units "Hi") Reachable.init)⟩

theorem charAt_eq (s : Str) (i : Nat) :
    charAt s i = if h : i < s.length then [s[i]] else [] := by
  by_cases h : i < s.length
  · simp [charAt, h, List.getElem?_eq_getElem h]
  · simp [charAt, h, List.getElem?_eq_none (Nat.le_of_not_lt h)]

theorem update_queue_fixed (R : Nat → Draw) (s : State) :
    (update R s).queue.map Cell.fixed = s.queue.map Cell.fixed := by
  by_cases h : maxEnd s.queue ≤ s.frame
  · rw [update_of_settled R s h]
  · rw [update_of_unsettled R s (by omega)]
    exact loop_queue_fixed R _ _ _

theorem map_texts_congr (q q' : List Cell) (h : q.map Cell.fixed = q'.map Cell.fixed) :
    q.map (fun c => (c.from_, c.to_)) = q'.map (fun c => (c.from_, c.to_)) := by
  have := congrArg (List.map (fun x : Str × Str × Nat × Nat => (x.1, x.2.1))) h
  simpa [Cell.fixed, Function.comp_def] using this

theorem ticks_fixed (R : Nat → Draw) (s : State) (oldText newText : Str) (hs : Inv s)
    (k : Nat) :
    (ticks R s oldText newText k).queue.map Cell.fixed =
      (builtQueue R s oldText newText).map Cell.fixed := by
  have hd := ticks_done R s oldText newText hs
  by_cases hk : k < maxEnd (builtQueue R s oldText newText)
  · exact (ticks_active R s oldText newText hs k hk).fixed_eq
  · obtain ⟨j, rfl⟩ := Nat.exists_eq_add_of_le (Nat.le_of_not_lt hk)
    rw [ticks_after R s oldText newText _ j hd.pending_eq]
    exact hd.fixed_eq

theorem randomChar_eq_some (R : Nat → Draw) (u : Nat) :
    ∃ g, randomChar R u = some g ∧ g ∈ chars := by
  have h : (R u).floorMul chars.length < chars.length := floorMul_lt _ _ (by decide)
  exact ⟨chars[(R u).floorMul chars.length], by simp [randomChar, List.getElem?_eq_getElem h],
    List.getElem_mem _⟩

theorem visit_render (R : Nat → Draw) (f : Nat) (a : Loop) (c : Cell) :
    ∃ c', (visit R f a c).queue = a.queue ++ [c'] ∧
      (visit R f a c).output = a.output ++ renderCell f c' ∧
      (c'.start ≤ f → f < c'.end_ → ∃ g, c'.char = some g) := by
  by_cases h1 : c.end_ ≤ f
  · exact ⟨c, by simp [visit, h1], by simp [visit, h1, renderCell], fun _ h => by omega⟩
  · by_cases h2 : c.start ≤ f
    · cases hc : c.char with
      | none =>
        obtain ⟨g, hg, _⟩ := randomChar_eq_some R a.used
        exact ⟨{ c with char := some g }, by simp [visit, h1, h2, hc, hg],
          by simp [visit, h1, h2, hc, hg, renderCell, dud, glyphText, noiseSpan],
          fun _ _ => ⟨g, rfl⟩⟩
      | some g0 =>
        by_cases h3 : (R a.used).below28 = true
        · obtain ⟨g, hg, _⟩ := randomChar_eq_some R (a.used + 1)
          exact ⟨{ c with char := some g }, by simp [visit, h1, h2, hc, h3, hg],
            by simp [visit, h1, h2, hc, h3, hg, renderCell, dud, glyphText, noiseSpan],
            fun _ _ => ⟨g, rfl⟩⟩
        · exact ⟨c, by simp [visit, h1, h2, hc, h3],
            by simp [visit, h1, h2, hc, h3, renderCell, dud, glyphText, noiseSpan],
            fun _ _ => ⟨g0, hc⟩⟩
    · exact ⟨c, by simp [visit, h1, h2], by simp [visit, h1, h2, renderCell],
        fun h _ => absurd h h2⟩

theorem foldl_visit_render (R : Nat → Draw) (f : Nat) (q : List Cell) (a : Loop) :
    ∃ q', (q.foldl (visit R f) a).queue = a.queue ++ q' ∧
      (q.foldl (visit R f) a).output = a.output ++ renderRule f q' ∧
      ∀ c ∈ q', c.start ≤ f → f < c.end_ → ∃ g, c.char = some g := by
  induction q generalizing a with
  | nil => exact ⟨[], by simp, by simp [renderRule], by simp⟩
  | cons c q ih =>
    obtain ⟨c', hq, ho, hg⟩ := visit_render R f a c
    obtain ⟨q', hq', ho', hg'⟩ := ih (visit R f a c)
    refine ⟨c' :: q', ?_, ?_, ?_⟩
    · simp [hq', hq]
    · simp [ho', ho, renderRule]
    · intro d hd
      rcases List.mem_cons.1 hd with rfl | hd
      · exact hg
      · exact hg' d hd

theorem loop_render (R : Nat → Draw) (f : Nat) (q : List Cell) (u : Nat) :
    (loop R f q u).output = renderRule f (loop R f q u).queue ∧
    ∀ c ∈ (loop R f q u).queue, c.start ≤ f → f < c.end_ → ∃ g, c.char = some g := by
  obtain ⟨q', hq, ho, hg⟩ :=
    foldl_visit_render R f q { output := [], complete := 0, queue := [], used := u }
  simp only [List.nil_append] at hq ho
  simp only [loop, hq, ho]
  exact ⟨trivial, hg⟩

theorem update_trace (R : Nat → Draw) (s : State) :
    (update R s).trace = s.trace ++ tickEffects R s := by
  unfold tickEffects
  by_cases h : maxEnd s.queue ≤ s.frame
  · rw [update_of_settled R s h]; simp
  · rw [update_of_unsettled R s (by omega)]; simp

theorem ready_of_atTick (R : Nat → Draw) (u : State) (hu : AtTick R u) : Ready u := by
  cases hu with
  | setText s oldText newText hs => exact ready_setTextPre R s _ _ (inv_of_reachable R s hs)
  | frame s h hs hh => exact ready_framePre s h (inv_of_reachable R s hs) hh

/-- C7 (cell construction): for every state, every `oldText`, `newText` and all draws, the
queue that `setText` builds has exactly `max (len oldText) (len newText)` cells and, in
index order, cell `i` has `from = oldText[i]` when `i < len oldText` and `''` otherwise,
and `to = newText[i]` when `i < len newText` and `''` otherwise; the first tick, run
inside `setText`, keeps that. An empty surface and the target `"Hi"` give the two cells
`(from = '', to = 'H')` and `(from = '', to = 'i')`. -/
theorem queue_construction (R : Nat → Draw) (s : State) (oldText newText : Str) :
    (builtQueue R s oldText newText).length = max oldText.length newText.length ∧
    (builtQueue R s oldText newText).map (fun c => (c.from_, c.to_)) =
      (List.range (max oldText.length newText.length)).map (cellTexts oldText newText) ∧
    (setText R s oldText newText).2.queue.length = max oldText.length newText.length ∧
    (setText R s oldText newText).2.queue.map (fun c => (c.from_, c.to_)) =
      (List.range (max oldText.length newText.length)).map (cellTexts oldText newText) ∧
    (builtQueue R s [] (units "Hi")).map (fun c => (c.from_, c.to_)) =
      [([], units "H"), ([], units "i")] := by
  have h0 : ∀ o n : Str, (builtQueue R s o n).map (fun c => (c.from_, c.to_)) =
      (List.range (max o.length n.length)).map (cellTexts o n) := by
    intro o n
    rw [builtQueue_eq, List.map_map]
    apply List.map_congr_left
    intro i _
    simp [builtCell, cellTexts, charAt_eq]
  have h1 := h0 oldText newText
  have h2 : (setText R s oldText newText).2.queue.map (fun c => (c.from_, c.to_)) =
      (List.range (max oldText.length newText.length)).map (cellTexts oldText newText) := by
    rw [← h1]
    exact map_texts_congr _ _ (update_queue_fixed R _)
  refine ⟨?_, h1, ?_, h2, ?_⟩
  · simp [builtQueue_eq]
  · have := congrArg List.length h2
    simpa using this
  · rw [h0]
    decide

/-- C8 (truncation): from every reachable state, when `oldText` is longer than `newText`,
the queue has `len oldText` cells at every tick of the task, every cell at an index
`i ≥ len newText` has `to = ''`, and a pass of the loop of `update` over such a cell, once
it is settled, adds nothing to the output; the render of the tick that resolves the promise
is `newText`, the old tail gone. -/
theorem truncation (R : Nat → Draw) (s : State) (oldText newText : Str)
    (hs : Reachable R s) (hlen : newText.length < oldText.length) :
    (∀ k, (ticks R s oldText newText k).queue.length = oldText.length) ∧
    (∀ k i c, newText.length ≤ i → (ticks R s oldText newText k).queue[i]? = some c →
      c.to_ = [] ∧ ∀ f a, c.end_ ≤ f → (visit R f a c).output = a.output) ∧
    (∃ pre, (ticks R s oldText newText (maxEnd (builtQueue R s oldText newText))).trace =
        pre ++ [Effect.write newText, Effect.resolve (setText R s oldText newText).1]) := by
  have hi := inv_of_reachable R s hs
  have hd := ticks_done R s oldText newText hi
  have htexts : ∀ k, (ticks R s oldText newText k).queue.map (fun c => (c.from_, c.to_)) =
      (List.range (max oldText.length newText.length)).map (cellTexts oldText newText) := by
    intro k
    rw [map_texts_congr _ _ (ticks_fixed R s oldText newText hi k), builtQueue_eq,
      List.map_map]
    apply List.map_congr_left
    intro i _
    simp [builtCell, cellTexts, charAt_eq]
  refine ⟨?_, ?_, ?_⟩
  · intro k
    have := congrArg List.length (htexts k)
    simp only [List.length_map, List.length_range] at this
    omega
  · intro k i c hi' hc
    have hto : c.to_ = [] := by
      have h1 := congrArg (fun l => l[i]?) (htexts k)
      simp only [List.getElem?_map, hc, Option.map_some'] at h1
      by_cases hir : i < max oldText.length newText.length
      · rw [List.getElem?_range hir] at h1
        simp only [Option.map_some', Option.some.injEq, cellTexts, Prod.mk.injEq] at h1
        rw [h1.2]
        simp [Nat.not_lt.2 hi']
      · rw [List.getElem?_eq_none (by simp; omega)] at h1
        simp at h1
    refine ⟨hto, ?_⟩
    intro f a hf
    simp [visit, hf, hto]
  · obtain ⟨pre, h1, _⟩ := hd.trace_eq
    exact ⟨pre, h1⟩

theorem truncation_witness :
    Reachable sampleDraws init ∧ (units "Hi").length < (units "Hello").length ∧
    (∀ k, (ticks sampleDraws init (units "Hello") (units "Hi") k).queue.length =
      (units "Hello").length) ∧
    (∃ pre, (ticks sampleDraws init (units "Hello") (units "Hi")
        (maxEnd (builtQueue sampleDraws init (units "Hello") (units "Hi")))).trace =
      pre ++ [Effect.write (units "Hi"),
        Effect.resolve (setText sampleDraws init (units "Hello") (units "Hi")).1]) :=
  ⟨Reachable.init, by decide,
    (truncation sampleDraws init (units "Hello") (units "Hi") Reachable.init (by decide)).1,
    (truncation sampleDraws init (units "Hello") (units "Hi") Reachable.init (by decide)).2.2⟩

/-- C10 (completion detection): on every tick, entered inside `setText` or as a scheduled
frame callback, `update` calls `resolve` if and only if every cell satisfies
`frame ≥ end` at that tick. When it does, the effects of the tick are the write and then
the resolve of the promise of the current task, nothing is requested and nothing is left
scheduled; when it does not, the effects are the write and then one request of a frame
callback, which is the only callback scheduled afterwards. -/
theorem completion_detection (R : Nat → Draw) (u : State) (hu : AtTick R u) :
    ((∃ p, Effect.resolve p ∈ tickEffects R u) ↔ ∀ c ∈ u.queue, c.end_ ≤ u.frame) ∧
    ((∀ c ∈ u.queue, c.end_ ≤ u.frame) →
      ∃ p w, u.resolve = some p ∧ tickEffects R u = [Effect.write w, Effect.resolve p] ∧
        (update R u).pending = [] ∧ (update R u).frame = u.frame) ∧
    (¬ (∀ c ∈ u.queue, c.end_ ≤ u.frame) →
      ∃ h w, tickEffects R u = [Effect.write w, Effect.request h] ∧
        (update R u).pending = [h] ∧ (update R u).frameRequest = some h ∧
        (update R u).frame = u.frame + 1) ∧
    (update R u).trace = u.trace ++ tickEffects R u := by
  have hr := ready_of_atTick R u hu
  obtain ⟨p, hp, _⟩ := hr.resolve_some
  have hset : (∀ c ∈ u.queue, c.end_ ≤ u.frame) →
      tickEffects R u = [Effect.write (u.queue.map Cell.to_).flatten, Effect.resolve p] ∧
        (update R u).pending = [] ∧ (update R u).frame = u.frame := by
    intro h
    unfold tickEffects
    rw [update_of_settled R u ((maxEnd_le_iff _ _).2 h)]
    simp [hp, resolveEffect, hr.pending_eq]
  have hun : ¬ (∀ c ∈ u.queue, c.end_ ≤ u.frame) →
      tickEffects R u = [Effect.write (loop R u.frame u.queue u.used).output,
          Effect.request u.nextHandle] ∧
        (update R u).pending = [u.nextHandle] ∧
        (update R u).frameRequest = some u.nextHandle ∧
        (update R u).frame = u.frame + 1 := by
    intro h
    rw [← maxEnd_le_iff] at h
    unfold tickEffects
    rw [update_of_unsettled R u (by omega)]
    simp [hr.pending_eq]
  refine ⟨?_, ?_, ?_, update_trace R u⟩
  · constructor
    · rintro ⟨q, hq⟩
      by_contra hne
      rw [(hun hne).1] at hq
      simp at hq
    · intro h
      exact ⟨p, by rw [(hset h).1]; simp⟩
  · intro h
    exact ⟨p, _, hp, hset h⟩
  · intro h
    exact ⟨u.nextHandle, _, hun h⟩

theorem completion_detection_witness :
    AtTick sampleDraws (setTextPre sampleDraws init [] (units "Hi")) ∧
    ((∃ p, Effect.resolve p ∈
        tickEffects sampleDraws (setTextPre sampleDraws init [] (units "Hi"))) ↔
      ∀ c ∈ (setTextPre sampleDraws init [] (units "Hi")).queue,
        c.end_ ≤ (setTextPre sampleDraws init [] (units "Hi")).frame) :=
  ⟨AtTick.setText init [] (units "Hi") Reachable.init,
    (completion_detection sampleDraws _
      (AtTick.setText init [] (units "Hi") Reachable.init)).1⟩

theorem builtCell_bounds (R : Nat → Draw) (oldText newText : Str) (u i : Nat) :
    (builtCell R oldText newText u i).start < 40 ∧
    (builtCell R oldText newText u i).start ≤ (builtCell R oldText newText u i).end_ ∧
    (builtCell R oldText newText u i).end_ < (builtCell R oldText newText u i).start + 40 ∧
    (builtCell R oldText newText u i).end_ ≤ 78 := by
  have h1 := floorMul_lt (R (u + 2 * i)) 40 (by decide)
  have h2 := floorMul_lt (R (u + 2 * i + 1)) 40 (by decide)
  simp only [builtCell]; omega

theorem exists_fixed_of_mem (q q' : List Cell) (h : q.map Cell.fixed = q'.map Cell.fixed)
    (c : Cell) (hc : c ∈ q) : ∃ c' ∈ q', c'.fixed = c.fixed := by
  have : c.fixed ∈ q'.map Cell.fixed := by
    rw [← h]; exact List.mem_map_of_mem _ hc
  obtain ⟨c', hc', he⟩ := List.mem_map.1 this
  exact ⟨c', hc', he⟩

theorem bounds_of_fixed_mem (R : Nat → Draw) (s : State) (oldText newText : Str) (c : Cell)
    (hc : c.fixed ∈ (builtQueue R s oldText newText).map Cell.fixed) :
    c.start < 40 ∧ c.start ≤ c.end_ ∧ c.end_ < c.start + 40 ∧ c.end_ ≤ 78 := by
  obtain ⟨c0, hc0, he⟩ := List.mem_map.1 hc
  rw [builtQueue_eq] at hc0
  obtain ⟨i, _, rfl⟩ := List.mem_map.1 hc0
  have hb := builtCell_bounds R oldText newText s.used i
  have h1 : c.start = (builtCell R oldText newText s.used i).start := by
    have := congrArg (fun x : Str × Str × Nat × Nat => x.2.2.1) he
    exact this.symm
  have h2 : c.end_ = (builtCell R oldText newText s.used i).end_ := by
    have := congrArg (fun x : Str × Str × Nat × Nat => x.2.2.2) he
    exact this.symm
  rw [h1, h2]; exact hb

theorem visit_scrambling (R : Nat → Draw) (f : Nat) (a : Loop) (c : Cell)
    (h1 : c.start ≤ f) (h2 : f < c.end_) :
    ∃ g, (visit R f a c).output = a.output ++ noiseSpan g ∧
      (visit R f a c).queue = a.queue ++ [{ c with char := some g }] ∧
      (g ∈ chars ∨ c.char = some g) := by
  have hn : ¬ c.end_ ≤ f := by omega
  cases hc : c.char with
  | none =>
    obtain ⟨g, hg, hmem⟩ := randomChar_eq_some R a.used
    exact ⟨g, by simp [visit, hn, h1, hc, hg, dud, glyphText, noiseSpan],
      by simp [visit, hn, h1, hc, hg], Or.inl hmem⟩
  | some g0 =>
    by_cases h3 : (R a.used).below28 = true
    · obtain ⟨g, hg, hmem⟩ := randomChar_eq_some R (a.used + 1)
      exact ⟨g, by simp [visit, hn, h1, hc, h3, hg, dud, glyphText, noiseSpan],
        by simp [visit, hn, h1, hc, h3, hg], Or.inl hmem⟩
    · refine ⟨g0, by simp [visit, hn, h1, hc, h3, dud, glyphText, noiseSpan], ?_, Or.inr rfl⟩
      have : ({ c with char := some g0 } : Cell) = c := by
        cases c; simp_all
      simp [visit, hn, h1, hc, h3, this]

/-- C11 (timing bounds): for all doubles `r1`, `r2` in `[0, 1)`, `floor(r1 * 40)`, with the
product rounded as doubles are, is a natural number below `40`, and
`floor(r1 * 40) + floor(r2 * 40)` lies from it up to less than `40` above it; cell `i` of
the queue that `setText` builds has these two numbers, for the draws number `2 i` and
`2 i + 1` of the call, as `start` and `end`. So every cell built by `setText`, before and
after the first tick, has `0 ≤ start < 40`, `start ≤ end < start + 40` and `end ≤ 78`. The
rounding is seen at the double nearest to `0.825`: it lies below `33 / 40` and yet gives
`33`. -/
theorem timing_bounds (R : Nat → Draw) (s : State) (oldText newText : Str) :
    (∀ r1 r2 : Draw, r1.floorMul 40 < 40 ∧ r1.floorMul 40 ≤ r1.floorMul 40 + r2.floorMul 40 ∧
      r1.floorMul 40 + r2.floorMul 40 < r1.floorMul 40 + 40) ∧
    (draw0825.floorMul 40 = 33 ∧ draw0825.num * 40 < 33 * draw0825.den) ∧
    (∀ i, i < max oldText.length newText.length →
      ∃ c, (builtQueue R s oldText newText)[i]? = some c ∧
        c.start = (R (s.used + 2 * i)).floorMul 40 ∧
        c.end_ = c.start + (R (s.used + 2 * i + 1)).floorMul 40) ∧
    (∀ c ∈ builtQueue R s oldText newText,
      c.start < 40 ∧ c.start ≤ c.end_ ∧ c.end_ < c.start + 40 ∧ c.end_ ≤ 78) ∧
    (∀ c ∈ (setText R s oldText newText).2.queue,
      c.start < 40 ∧ c.start ≤ c.end_ ∧ c.end_ < c.start + 40 ∧ c.end_ ≤ 78) := by
  refine ⟨?_, by decide, ?_, ?_, ?_⟩
  · intro r1 r2
    have h1 := floorMul_lt r1 40 (by decide)
    have h2 := floorMul_lt r2 40 (by decide)
    omega
  · intro i hi
    refine ⟨builtCell R oldText newText s.used i, ?_, rfl, rfl⟩
    rw [builtQueue_eq, List.getElem?_map, List.getElem?_range hi]
    rfl
  · intro c hc
    exact bounds_of_fixed_mem R s oldText newText c (List.mem_map_of_mem _ hc)
  · intro c hc
    apply bounds_of_fixed_mem R s oldText newText c
    have : (setText R s oldText newText).2.queue.map Cell.fixed =
        (builtQueue R s oldText newText).map Cell.fixed := update_queue_fixed R _
    rw [← this]
    exact List.mem_map_of_mem _ hc

/-- C13 (three states): for every cell whose `from`, `to`, `start` and `end` are those of a
cell built by `setText`, whatever its `char`, and every frame `f`, exactly one of
`f < start` (pending), `start ≤ f < end` (scrambling) and `end ≤ f` (settled) holds, and
the pass of the loop of `update` over the cell appends to the output `from` in the first
case, a noise span around the glyph that the cell holds after the pass in the second, and
`to` in the third. -/
theorem three_state_partition (R : Nat → Draw) (s : State) (oldText newText : Str)
    (c : Cell) (hc : c.fixed ∈ (builtQueue R s oldText newText).map Cell.fixed)
    (f : Nat) (a : Loop) :
    ((f < c.start ∧ ¬ (c.start ≤ f ∧ f < c.end_) ∧ ¬ c.end_ ≤ f) ∨
      (¬ f < c.start ∧ (c.start ≤ f ∧ f < c.end_) ∧ ¬ c.end_ ≤ f) ∨
      (¬ f < c.start ∧ ¬ (c.start ≤ f ∧ f < c.end_) ∧ c.end_ ≤ f)) ∧
    (f < c.start → (visit R f a c).output = a.output ++ c.from_ ∧
      (visit R f a c).queue = a.queue ++ [c]) ∧
    (c.start ≤ f → f < c.end_ →
      ∃ g, (visit R f a c).output = a.output ++ noiseSpan g ∧
        (visit R f a c).queue = a.queue ++ [{ c with char := some g }]) ∧
    (c.end_ ≤ f → (visit R f a c).output = a.output ++ c.to_ ∧
      (visit R f a c).queue = a.queue ++ [c]) := by
  have hb := bounds_of_fixed_mem R s oldText newText c hc
  refine ⟨by omega, ?_, ?_, ?_⟩
  · intro h
    have h1 : ¬ c.end_ ≤ f := by omega
    have h2 : ¬ c.start ≤ f := by omega
    simp [visit, h1, h2]
  · intro h1 h2
    obtain ⟨g, ho, hq, _⟩ := visit_scrambling R f a c h1 h2
    exact ⟨g, ho, hq⟩
  · intro h
    simp [visit, h]

theorem three_state_partition_witness :
    (builtCell sampleDraws (units "Hello") (units "Hi") 0 1).fixed ∈
      (builtQueue sampleDraws init (units "Hello") (units "Hi")).map Cell.fixed ∧
    ∃ g, (visit sampleDraws 10
        { output := [], complete := 0, queue := [], used := 10 }
        (builtCell sampleDraws (units "Hello") (units "Hi") 0 1)).output
      = [] ++ noiseSpan g :=
  ⟨by decide,
    ((three_state_partition sampleDraws init (units "Hello") (units "Hi")
      (builtCell sampleDraws (units "Hello") (units "Hi") 0 1) (by decide) 10
      { output := [], complete := 0, queue := [], used := 10 }).2.2.1
        (by decide) (by decide)).imp fun _ h => h.1⟩

theorem tickEntry_spec (R : Nat → Draw) (s : State) (oldText newText : Str) (hs : Inv s)
    (k : Nat) (hk : k ≤ maxEnd (builtQueue R s oldText newText)) :
    Entering s.nextPromise (builtQueue R s oldText newText) (resolved s.trace) k
      (tickEntry R s oldText newText k) ∧
    ticks R s oldText newText k = update R (tickEntry R s oldText newText k) := by
  cases k with
  | zero => exact ⟨entering_setTextPre R s oldText newText hs, rfl⟩
  | succ k =>
    have ha := ticks_active R s oldText newText hs k (by omega)
    obtain ⟨h, hh⟩ := ha.pending_eq
    have he : tickEntry R s oldText newText (k + 1) =
        framePre (ticks R s oldText newText k) h := by
      simp [tickEntry, hh]
    rw [he]
    refine ⟨⟨ha.frame_eq, by simp [framePre, hh], ha.fixed_eq, ha.resolve_eq,
      ha.resolved_eq⟩, ?_⟩
    rw [ticks_succ]
    simp [nextFrame, hh, frameCallback]

theorem getElem?_of_map_fixed (q q' : List Cell) (h : q.map Cell.fixed = q'.map Cell.fixed)
    (i : Nat) (c : Cell) (hc : q[i]? = some c) :
    ∃ c', q'[i]? = some c' ∧ c'.fixed = c.fixed := by
  have h1 := congrArg (fun l => l[i]?) h
  simp only [List.getElem?_map, hc, Option.map_some'] at h1
  cases hq : q'[i]? with
  | none => rw [hq] at h1; simp at h1
  | some c' =>
    rw [hq] at h1
    simp only [Option.map_some', Option.some.injEq] at h1
    exact ⟨c', rfl, h1.symm⟩

theorem tickEffects_shape (R : Nat → Draw) (u : State) :
    ∃ w e, tickEffects R u = [Effect.write w, e] ∧ ∀ w', e ≠ Effect.write w' := by
  unfold tickEffects
  by_cases h : maxEnd u.queue ≤ u.frame
  · rw [update_of_settled R u h]
    refine ⟨(u.queue.map Cell.to_).flatten, resolveEffect u.resolve, by simp, ?_⟩
    intro w'
    cases u.resolve <;> simp [resolveEffect]
  · rw [update_of_unsettled R u (by omega)]
    exact ⟨(loop R u.frame u.queue u.used).output, Effect.request u.nextHandle,
      by simp, by simp⟩

/-- C12 (monotonic settling): from every reachable state, for the task started by
`setText`, for ticks `t1 < t2` of the task and every index `i`: if at tick `t1` the cell at
`i` is settled (`end ≤ frame`, so the pass of the loop over it appends exactly its `to`),
then at tick `t2` the cell at `i` has the same `from`, `to`, `start` and `end`, it is
settled again, and the pass of the loop over it appends exactly that same `to`, neither a
noise span nor `from`. -/
theorem monotonic_settling (R : Nat → Draw) (s : State) (oldText newText : Str)
    (hs : Reachable R s) (t1 t2 i : Nat) (c1 : Cell) (h12 : t1 < t2)
    (h2 : t2 ≤ maxEnd (builtQueue R s oldText newText))
    (hc : (tickEntry R s oldText newText t1).queue[i]? = some c1)
    (hset : c1.end_ ≤ (tickEntry R s oldText newText t1).frame) :
    (∀ a, (visit R (tickEntry R s oldText newText t1).frame a c1).output =
      a.output ++ c1.to_) ∧
    ∃ c2, (tickEntry R s oldText newText t2).queue[i]? = some c2 ∧
      c2.fixed = c1.fixed ∧
      c2.end_ ≤ (tickEntry R s oldText newText t2).frame ∧
      ∀ a, (visit R (tickEntry R s oldText newText t2).frame a c2).output =
        a.output ++ c1.to_ := by
  have hi := inv_of_reachable R s hs
  have e1 := (tickEntry_spec R s oldText newText hi t1 (by omega)).1
  have e2 := (tickEntry_spec R s oldText newText hi t2 h2).1
  refine ⟨fun a => by simp [visit, hset], ?_⟩
  obtain ⟨c2, hc2, hf⟩ := getElem?_of_map_fixed _ _ (e1.fixed_eq.trans e2.fixed_eq.symm) i c1 hc
  have hto : c2.to_ = c1.to_ := congrArg (fun x : Str × Str × Nat × Nat => x.2.1) hf
  have hend : c2.end_ = c1.end_ := congrArg (fun x : Str × Str × Nat × Nat => x.2.2.2) hf
  have hle : c2.end_ ≤ (tickEntry R s oldText newText t2).frame := by
    rw [e2.frame_eq, hend]
    rw [e1.frame_eq] at hset
    omega
  exact ⟨c2, hc2, hf, hle, fun a => by simp [visit, hle, hto]⟩

theorem monotonic_settling_witness :
    Reachable sampleDraws init ∧ 6 < 7 ∧
    7 ≤ maxEnd (builtQueue sampleDraws init (units "Hello") (units "Hi")) ∧
    ∃ c2, (tickEntry sampleDraws init (units "Hello") (units "Hi") 7).queue[0]? = some c2 ∧
      c2.end_ ≤ (tickEntry sampleDraws init (units "Hello") (units "Hi") 7).frame ∧
      ∀ a, (visit sampleDraws (tickEntry sampleDraws init (units "Hello") (units "Hi") 7).frame
        a c2).output = a.output ++ units "H" :=
  ⟨Reachable.init, by decide, by decide,
    (monotonic_settling sampleDraws init (units "Hello") (units "Hi") Reachable.init 6 7 0
      { from_ := units "H", to_ := units "H", start := 1, end_ := 6, char := some 91 }
      (by decide) (by decide) (by decide) (by decide)).2.imp
        fun _ h => ⟨h.1, h.2.2.1, h.2.2.2⟩⟩

/-- C15 (frame counter): `setText` sets `frame` to `0` and runs the first tick itself, so
the state it returns already holds the write of that tick; from every reachable state, with
`m` the largest `end` of the built queue, tick number `k` of the task (`k = 0, …, m`) enters
`update` with `frame = k`, every tick before the last leaves `frame` one higher, the last
tick leaves `frame = m`, and from one animation frame to the next `frame` never
decreases. -/
theorem frame_counter (R : Nat → Draw) (s : State) (oldText newText : Str)
    (hs : Reachable R s) :
    (setTextPre R s oldText newText).frame = 0 ∧
    (setText R s oldText newText).2 = update R (setTextPre R s oldText newText) ∧
    (∃ w e, (setText R s oldText newText).2.trace = s.trace ++ [Effect.write w, e] ∧
      ∀ w', e ≠ Effect.write w') ∧
    (∀ k, k ≤ maxEnd (builtQueue R s oldText newText) →
      (tickEntry R s oldText newText k).frame = k ∧
      ticks R s oldText newText k = update R (tickEntry R s oldText newText k)) ∧
    (∀ k, k < maxEnd (builtQueue R s oldText newText) →
      (ticks R s oldText newText k).frame = (tickEntry R s oldText newText k).frame + 1) ∧
    (ticks R s oldText newText (maxEnd (builtQueue R s oldText newText))).frame =
      maxEnd (builtQueue R s oldText newText) ∧
    (∀ k, (ticks R s oldText newText k).frame ≤ (ticks R s oldText newText (k + 1)).frame) := by
  have hi := inv_of_reachable R s hs
  have hd := ticks_done R s oldText newText hi
  refine ⟨rfl, rfl, ?_, ?_, ?_, hd.frame_eq, ?_⟩
  · obtain ⟨w, e, h1, h2⟩ := tickEffects_shape R (setTextPre R s oldText newText)
    refine ⟨w, e, ?_, h2⟩
    show (update R (setTextPre R s oldText newText)).trace = _
    rw [update_trace, h1]; rfl
  · intro k hk
    have := tickEntry_spec R s oldText newText hi k hk
    exact ⟨this.1.frame_eq, this.2⟩
  · intro k hk
    rw [(ticks_active R s oldText newText hi k hk).frame_eq,
      (tickEntry_spec R s oldText newText hi k (by omega)).1.frame_eq]
  · intro k
    by_cases hk : k + 1 < maxEnd (builtQueue R s oldText newText)
    · rw [(ticks_active R s oldText newText hi k (by omega)).frame_eq,
        (ticks_active R s oldText newText hi (k + 1) hk).frame_eq]
      omega
    · by_cases hk' : k < maxEnd (builtQueue R s oldText newText)
      · have : k + 1 = maxEnd (builtQueue R s oldText newText) := by omega
        rw [(ticks_active R s oldText newText hi k hk').frame_eq, this, hd.frame_eq]
      · obtain ⟨j, hj⟩ := Nat.exists_eq_add_of_le (Nat.le_of_not_lt hk')
        have h1 : k + 1 = maxEnd (builtQueue R s oldText newText) + (j + 1) := by omega
        rw [h1, hj, ticks_after R s oldText newText _ j hd.pending_eq,
          ticks_after R s oldText newText _ (j + 1) hd.pending_eq]

theorem frame_counter_witness :
    Reachable sampleDraws init ∧
    ∀ k, k ≤ maxEnd (builtQueue sampleDraws init (units "Hello") (units "Hi")) →
      (tickEntry sampleDraws init (units "Hello") (units "Hi") k).frame = k ∧
      ticks sampleDraws init (units "Hello") (units "Hi") k =
        update sampleDraws (tickEntry sampleDraws init (units "Hello") (units "Hi") k) :=
  ⟨Reachable.init,
    (frame_counter sampleDraws init (units "Hello") (units "Hi") Reachable.init).2.2.2.1⟩

theorem foldl_visit_queue_append (R : Nat → Draw) (f : Nat) (q : List Cell) (a : Loop) :
    ∃ q', (q.foldl (visit R f) a).queue = a.queue ++ q' ∧ q'.length = q.length := by
  obtain ⟨q', hq, _, _⟩ := foldl_visit_render R f q a
  refine ⟨q', hq, ?_⟩
  have := congrArg List.length (foldl_visit_fixed R f q a)
  rw [hq] at this
  simp only [List.length_map, List.length_append] at this
  omega

theorem loop_queue_length (R : Nat → Draw) (f : Nat) (q : List Cell) (u : Nat) :
    (loop R f q u).queue.length = q.length := by
  have := congrArg List.length (loop_queue_fixed R f q u)
  simpa using this

theorem loop_append_getElem (R : Nat → Draw) (f : Nat) (l1 l2 : List Cell) (c : Cell)
    (u : Nat) :
    (loop R f (l1 ++ c :: l2) u).queue[l1.length]? =
      (visit R f (loop R f l1 u) c).queue[l1.length]? := by
  have h1 : loop R f (l1 ++ c :: l2) u =
      l2.foldl (visit R f) (visit R f (loop R f l1 u) c) := by
    simp [loop, List.foldl_append]
  obtain ⟨q', hq', _⟩ := foldl_visit_queue_append R f l2 (visit R f (loop R f l1 u) c)
  obtain ⟨c', hc', _, _⟩ := visit_render R f (loop R f l1 u) c
  have hlen : l1.length < (visit R f (loop R f l1 u) c).queue.length := by
    rw [hc', List.length_append, loop_queue_length]; simp
  rw [h1, hq', List.getElem?_append_left hlen]

theorem loop_getElem (R : Nat → Draw) (f : Nat) (q : List Cell) (u i : Nat) (c : Cell)
    (hc : q[i]? = some c) :
    (loop R f q u).queue[i]? = (visit R f (loop R f (q.take i) u) c).queue[i]? ∧
    (loop R f (q.take i) u).queue.length = i := by
  obtain ⟨hi, rfl⟩ := List.getElem?_eq_some_iff.1 hc
  have hq : q.take i ++ q[i] :: q.drop (i + 1) = q := by
    rw [← List.drop_eq_getElem_cons hi, List.take_append_drop]
  have hl : (q.take i).length = i := by
    rw [List.length_take]; omega
  have := loop_append_getElem R f (q.take i) (q.drop (i + 1)) q[i] u
  rw [hq, hl] at this
  exact ⟨this, by rw [loop_queue_length, hl]⟩

theorem update_queue (R : Nat → Draw) (u : State) :
    (update R u).queue = (loop R u.frame u.queue u.used).queue := by
  by_cases h : maxEnd u.queue ≤ u.frame
  · rw [update_of_settled R u h]
    simp [loop, foldl_visit_settled R u.frame u.queue _ ((maxEnd_le_iff _ _).1 h)]
  · rw [update_of_unsettled R u (by omega)]

theorem visit_idle (R : Nat → Draw) (f : Nat) (a : Loop) (c : Cell)
    (h : ¬ (c.start ≤ f ∧ f < c.end_)) :
    (visit R f a c).queue = a.queue ++ [c] ∧ (visit R f a c).used = a.used := by
  by_cases h1 : c.end_ ≤ f
  · simp [visit, h1]
  · have h2 : ¬ c.start ≤ f := fun h2 => h ⟨h2, by omega⟩
    simp [visit, h1, h2]

/-- C20 (frame effect of a tick): for every state and all draws, a tick of `update` leaves
the number of cells and, cell by cell, `from`, `to`, `start` and `end` as they were; a cell
that does not satisfy `start ≤ frame < end` at that tick is left exactly as it was, so the
`char` of a cell differs after the tick only where `start ≤ frame < end` holds. -/
theorem tick_frame_effect (R : Nat → Draw) (u : State) :
    (update R u).queue.length = u.queue.length ∧
    (update R u).queue.map Cell.fixed = u.queue.map Cell.fixed ∧
    (∀ (i : Nat) (c : Cell), u.queue[i]? = some c →
      ∃ c', (update R u).queue[i]? = some c' ∧
        c'.from_ = c.from_ ∧ c'.to_ = c.to_ ∧ c'.start = c.start ∧ c'.end_ = c.end_ ∧
        (¬ (c.start ≤ u.frame ∧ u.frame < c.end_) → c' = c) ∧
        (c'.char ≠ c.char → c.start ≤ u.frame ∧ u.frame < c.end_)) := by
  have hfix := update_queue_fixed R u
  refine ⟨by simpa using congrArg List.length hfix, hfix, ?_⟩
  intro i c hc
  obtain ⟨c', hc', hf⟩ := getElem?_of_map_fixed _ _ hfix.symm i c hc
  have hidle : ¬ (c.start ≤ u.frame ∧ u.frame < c.end_) → c' = c := by
    intro h
    have hl := loop_getElem R u.frame u.queue u.used i c hc
    rw [update_queue, hl.1, (visit_idle R u.frame _ c h).1,
      List.getElem?_append_right (by rw [hl.2]), hl.2] at hc'
    simp only [Nat.sub_self, List.getElem?_cons_zero, Option.some.injEq] at hc'
    exact hc'.symm
  refine ⟨c', hc', ?_, ?_, ?_, ?_, hidle, ?_⟩
  · exact congrArg (fun x : Str × Str × Nat × Nat => x.1) hf
  · exact congrArg (fun x : Str × Str × Nat × Nat => x.2.1) hf
  · exact congrArg (fun x : Str × Str × Nat × Nat => x.2.2.1) hf
  · exact congrArg (fun x : Str × Str × Nat × Nat => x.2.2.2) hf
  · intro hne
    by_contra h
    exact hne (by rw [hidle h])

/-- C16 (noise hold and re-roll): for every state and all draws, take a cell `c` at index `i`
with `start ≤ frame < end` at a tick of `update`, and let `a` be the state of the loop when
it reaches that cell. If `char` is unset, no draw is tested, the next draw picks a glyph,
which is stored and emitted. If `char` is set, the next draw is tested: below `0.28` the
draw after it picks a glyph, which is stored and emitted; otherwise the cell is left as it
was and the stored glyph is emitted again. So the pass consumes a glyph draw if and only if
`char` is unset or the tested draw is below `0.28`. -/
theorem noise_hold_and_reroll (R : Nat → Draw) (u : State) (i : Nat) (c : Cell)
    (hc : u.queue[i]? = some c) (h1 : c.start ≤ u.frame) (h2 : u.frame < c.end_) :
    (c.char = none →
      (update R u).queue[i]? = some { c with
        char := randomChar R (loop R u.frame (u.queue.take i) u.used).used } ∧
      (visit R u.frame (loop R u.frame (u.queue.take i) u.used) c).output =
        (loop R u.frame (u.queue.take i) u.used).output ++
          dud (randomChar R (loop R u.frame (u.queue.take i) u.used).used)) ∧
    (∀ g, c.char = some g →
      (R (loop R u.frame (u.queue.take i) u.used).used).below28 = true →
      (update R u).queue[i]? = some { c with
        char := randomChar R ((loop R u.frame (u.queue.take i) u.used).used + 1) } ∧
      (visit R u.frame (loop R u.frame (u.queue.take i) u.used) c).output =
        (loop R u.frame (u.queue.take i) u.used).output ++
          dud (randomChar R ((loop R u.frame (u.queue.take i) u.used).used + 1))) ∧
    (∀ g, c.char = some g →
      (R (loop R u.frame (u.queue.take i) u.used).used).below28 = false →
      (update R u).queue[i]? = some c ∧
      (visit R u.frame (loop R u.frame (u.queue.take i) u.used) c).output =
        (loop R u.frame (u.queue.take i) u.used).output ++ dud (some g)) ∧
    (visit R u.frame (loop R u.frame (u.queue.take i) u.used) c).used =
      (loop R u.frame (u.queue.take i) u.used).used +
        (if c.char = none then 0 else 1) +
        (if c.char = none ∨
            (R (loop R u.frame (u.queue.take i) u.used).used).below28 = true
          then 1 else 0) := by
  have hl := loop_getElem R u.frame u.queue u.used i c hc
  have hn : ¬ c.end_ ≤ u.frame := by omega
  have key : ∀ c' : Cell,
      (visit R u.frame (loop R u.frame (u.queue.take i) u.used) c).queue =
        (loop R u.frame (u.queue.take i) u.used).queue ++ [c'] →
      (update R u).queue[i]? = some c' := by
    intro c' h
    rw [update_queue, hl.1, h, List.getElem?_append_right (by rw [hl.2]), hl.2]
    simp
  refine ⟨?_, ?_, ?_, ?_⟩
  · intro h0
    exact ⟨key _ (by simp [visit, hn, h1, h0]), by simp [visit, hn, h1, h0]⟩
  · intro g hg hb
    exact ⟨key _ (by simp [visit, hn, h1, hg, hb]), by simp [visit, hn, h1, hg, hb]⟩
  · intro g hg hb
    exact ⟨key _ (by simp [visit, hn, h1, hg, hb]), by simp [visit, hn, h1, hg, hb]⟩
  · cases h0 : c.char with
    | none => simp [visit, hn, h1, h0]
    | some g =>
      cases hb : (R (loop R u.frame (u.queue.take i) u.used).used).below28 <;>
        simp [visit, hn, h1, h0, hb]

theorem noise_hold_and_reroll_witness :
    (tickEntry sampleDraws init (units "Hello") (units "Hi") 3).queue[0]? =
      some { from_ := units "H", to_ := units "H", start := 1, end_ := 6, char := some 95 } ∧
    (update sampleDraws (tickEntry sampleDraws init (units "Hello") (units "Hi") 3)).queue[0]? =
      some { from_ := units "H", to_ := units "H", start := 1, end_ := 6, char := some 95 } :=
  ⟨by decide,
    ((noise_hold_and_reroll sampleDraws
      (tickEntry sampleDraws init (units "Hello") (units "Hi") 3) 0
      { from_ := units "H", to_ := units "H", start := 1, end_ := 6, char := some 95 }
      (by decide) (by decide) (by decide)).2.2.1 95 rfl (by decide)).1⟩

/-- C14 (restart on the displayed text): from every reachable state, `setText(X)` on a
surface that shows `X` builds `len X` cells, each with `from = to`; their `start` and
`end` are those of any other call that builds as many cells, drawn from the same draws. The
task runs the ticks at the frames `0, …, m`, `m` the largest `end`, each but the last
leaving the promise unresolved and the next tick scheduled, and the last writing `X` and
resolving. A cell with `start ≤ frame < end` is emitted as a noise span although its `from`
equals its `to`. The promise is resolved by the synchronous first tick if and only if every
cell has `start = 0` and `end = 0`. -/
theorem idempotent_restart (R : Nat → Draw) (s : State) (X : Str) (hs : Reachable R s) :
    (builtQueue R s X X).length = X.length ∧
    (∀ c ∈ builtQueue R s X X, c.from_ = c.to_) ∧
    (∀ oldText newText : Str, max oldText.length newText.length = X.length →
      (builtQueue R s X X).map (fun c => (c.start, c.end_)) =
        (builtQueue R s oldText newText).map (fun c => (c.start, c.end_))) ∧
    (∀ k, k < maxEnd (builtQueue R s X X) →
      Effect.resolve (setText R s X X).1 ∉ (ticks R s X X k).trace ∧
      (ticks R s X X k).pending.length = 1) ∧
    (∃ pre, (ticks R s X X (maxEnd (builtQueue R s X X))).trace =
      pre ++ [Effect.write X, Effect.resolve (setText R s X X).1]) ∧
    (∀ c ∈ builtQueue R s X X, ∀ f a, c.start ≤ f → f < c.end_ →
      ∃ g, (visit R f a c).output = a.output ++ noiseSpan g) ∧
    (Effect.resolve (setText R s X X).1 ∈ (setText R s X X).2.trace ↔
      ∀ c ∈ builtQueue R s X X, c.start = 0 ∧ c.end_ = 0) := by
  have hi := inv_of_reachable R s hs
  have hd := ticks_done R s X X hi
  have hfresh := fresh_promise s hi
  refine ⟨by simp [builtQueue_eq], ?_, ?_, ?_, ?_, ?_, ?_⟩
  · intro c hc
    rw [builtQueue_eq] at hc
    obtain ⟨i, _, rfl⟩ := List.mem_map.1 hc
    rfl
  · intro oldText newText hlen
    rw [builtQueue_eq, builtQueue_eq, hlen, Nat.max_self, List.map_map, List.map_map]
    rfl
  · intro k hk
    have ha := ticks_active R s X X hi k hk
    refine ⟨?_, ?_⟩
    · rw [← mem_resolved, ha.resolved_eq]; exact hfresh
    · obtain ⟨h, hh⟩ := ha.pending_eq
      simp [hh]
  · obtain ⟨pre, h1, _⟩ := hd.trace_eq
    exact ⟨pre, h1⟩
  · intro c _ f a h1 h2
    obtain ⟨g, ho, _⟩ := visit_scrambling R f a c h1 h2
    exact ⟨g, ho⟩
  · constructor
    · intro hmem
      have h0 : maxEnd (builtQueue R s X X) = 0 := by
        by_contra hne
        have ha := ticks_active R s X X hi 0 (by omega)
        have : (setText R s X X).1 ∈ resolved (ticks R s X X 0).trace := by
          rw [mem_resolved]; exact hmem
        rw [ha.resolved_eq] at this
        exact hfresh this
      intro c hc
      have he : c.end_ ≤ 0 := (maxEnd_le_iff _ 0).1 (by omega) c hc
      have hb := bounds_of_fixed_mem R s X X c (List.mem_map_of_mem _ hc)
      omega
    · intro hall
      have h0 : maxEnd (builtQueue R s X X) = 0 := by
        have : maxEnd (builtQueue R s X X) ≤ 0 := by
          rw [maxEnd_le_iff]
          intro c hc
          have := (hall c hc).2
          omega
        omega
      rw [h0] at hd
      have := resolved_done _ _ _ _ _ hd
      rw [← mem_resolved]
      show s.nextPromise ∈ resolved (ticks R s X X 0).trace
      rw [this]; simp

theorem idempotent_restart_witness :
    Reachable sampleDraws init ∧
    (builtQueue sampleDraws init (units "Hi") (units "Hi")).length = (units "Hi").length ∧
    (∃ pre, (ticks sampleDraws init (units "Hi") (units "Hi")
        (maxEnd (builtQueue sampleDraws init (units "Hi") (units "Hi")))).trace =
      pre ++ [Effect.write (units "Hi"),
        Effect.resolve (setText sampleDraws init (units "Hi") (units "Hi")).1]) :=
  ⟨Reachable.init,
    (idempotent_restart sampleDraws init (units "Hi") Reachable.init).1,
    (idempotent_restart sampleDraws init (units "Hi") Reachable.init).2.2.2.2.1⟩

theorem shift_le_five (r : Draw) (n : Nat) (hn : 0 < n) (hn32 : n ≤ 32) :
    excessBits (r.num * n) ≤ 5 := by
  have h := shift_lt r n hn
  by_contra hc
  have : 2 ^ 6 ≤ 2 ^ excessBits (r.num * n) :=
    Nat.pow_le_pow_right (by decide) (by omega)
  omega

theorem mul_den_le_round (r : Draw) (q s k : Nat) (hs : s ≤ r.exp) (hk : k * r.den ≤ q) :
    k * r.den ≤ roundShift q s * 2 ^ s := by
  have hp : 0 < 2 ^ s := Nat.pos_of_ne_zero (by simp)
  have hden : r.den = 2 ^ (r.exp - s) * 2 ^ s := by
    rw [Draw.den, ← Nat.pow_add, Nat.sub_add_cancel hs]
  rw [hden, ← Nat.mul_assoc] at hk ⊢
  have h1 : k * 2 ^ (r.exp - s) ≤ q / 2 ^ s := (Nat.le_div_iff_mul_le hp).2 hk
  exact Nat.mul_le_mul_right _ (Nat.le_trans h1 (roundShift_ge q s))

theorem floorMul_interval (r : Draw) (n j : Nat) (hn : 0 < n) (hn32 : n ≤ 32) :
    (r.floorMul n = j → j * r.den ≤ r.num * n + 16 ∧ r.num * n < (j + 1) * r.den) ∧
    (j * r.den ≤ r.num * n ∧ r.num * n + 16 < (j + 1) * r.den → r.floorMul n = j) := by
  have hd : 0 < r.den := Nat.pos_of_ne_zero (by simp [Draw.den])
  have h5 := shift_le_five r n hn hn32
  have hs : excessBits (r.num * n) ≤ r.exp := Nat.le_trans h5 (by have := r.exp_ge; omega)
  have hP : 2 ^ excessBits (r.num * n) ≤ 32 := by
    calc 2 ^ excessBits (r.num * n) ≤ 2 ^ 5 := Nat.pow_le_pow_right (by decide) h5
      _ = 32 := by norm_num
  have hr := roundShift_mul_le (r.num * n) (excessBits (r.num * n))
  constructor
  · intro h
    have h1 : j * r.den ≤ roundShift (r.num * n) (excessBits (r.num * n)) *
        2 ^ excessBits (r.num * n) := by
      have := Nat.div_mul_le_self (roundShift (r.num * n) (excessBits (r.num * n)) *
        2 ^ excessBits (r.num * n)) r.den
      rw [show roundShift (r.num * n) (excessBits (r.num * n)) *
        2 ^ excessBits (r.num * n) / r.den = j from h] at this
      exact this
    refine ⟨by omega, ?_⟩
    by_contra hc
    have h2 := mul_den_le_round r (r.num * n) (excessBits (r.num * n)) (j + 1) hs
      (Nat.le_of_not_lt hc)
    have h3 : j + 1 ≤ r.floorMul n := (Nat.le_div_iff_mul_le hd).2 h2
    omega
  · rintro ⟨h1, h2⟩
    have h3 := mul_den_le_round r (r.num * n) (excessBits (r.num * n)) j hs h1
    have h4 : j ≤ r.floorMul n := (Nat.le_div_iff_mul_le hd).2 h3
    have h5 : r.floorMul n < j + 1 := by
      unfold Draw.floorMul
      rw [Nat.div_lt_iff_lt_mul hd]
      omega
    omega

theorem reachable_ticks (R : Nat → Draw) (s : State) (oldText newText : Str)
    (hs : Reachable R s) (k : Nat) : Reachable R (ticks R s oldText newText k) := by
  induction k with
  | zero => exact Reachable.setText s oldText newText hs
  | succ k ih =>
    rw [ticks_succ]
    unfold nextFrame
    split
    · exact ih
    · next h _ hp =>
      exact Reachable.frame _ h ih (by rw [hp]; exact List.mem_cons_self _ _)

/-- C17 fails as stated: the glyphs of the alphabet are not pairwise distinct. The
underscore (code unit 95) stands at index 4 and again at the indices 18 to 25, nine times
in all, while `!` (code unit 33) stands there once. -/
theorem noise_alphabet_counterexample :
    ¬ chars.Nodup ∧ chars[4]? = some 95 ∧ chars[18]? = some 95 ∧
    chars.count 95 = 9 ∧ chars.count 33 = 1 := by
  decide

/-- C17, as the code has it: the alphabet of `src/script.js` has 26 code units; none is an
ASCII letter or digit, and the only one outside ASCII is the em dash U+2014. It holds 18
different glyphs: the underscore nine times, every other glyph once. `randomChar` returns
the glyph at position `floor(r * 26)`, computed in doubles, which is always a position of
the alphabet. Position `j` is drawn by the draws of the interval `j / 26 ≤ r < (j + 1) / 26`,
up to the rounding of the product: a draw with `floor(r * 26) = j` has
`j / 26 - 16 / (26 * 2 ^ exp) ≤ r < (j + 1) / 26`, and every draw with
`j / 26 ≤ r < (j + 1) / 26 - 16 / (26 * 2 ^ exp)` has `floor(r * 26) = j`, where
`2 ^ exp ≥ 2 ^ 53`. So the 26 positions are drawn on intervals of the same width up to
`2 ^ -49`, the underscore on nine of them. The rounding is seen at the double
`0.1923076923076923`: it lies below `5 / 26` and yet draws position `5`. -/
theorem noise_alphabet (R : Nat → Draw) (u : Nat) :
    chars.length = 26 ∧
    (∀ g ∈ chars, isAsciiAlnum g = false ∧ (g < 128 ∨ g = 8212)) ∧
    chars.dedup.length = 18 ∧
    chars.count 95 = 9 ∧
    (∀ g ∈ chars, g ≠ 95 → chars.count g = 1) ∧
    (∀ (r : Draw) (j : Nat),
      (r.floorMul chars.length = j →
        j * r.den ≤ r.num * chars.length + 16 ∧ r.num * chars.length < (j + 1) * r.den) ∧
      (j * r.den ≤ r.num * chars.length ∧ r.num * chars.length + 16 < (j + 1) * r.den →
        r.floorMul chars.length = j)) ∧
    (draw01923.floorMul chars.length = 5 ∧
      draw01923.num * chars.length < 5 * draw01923.den) ∧
    (R u).floorMul chars.length < chars.length ∧
    randomChar R u = chars[(R u).floorMul chars.length]? := by
  refine ⟨by decide, by decide, by decide, by decide, by decide, ?_, by decide, ?_, rfl⟩
  · intro r j
    exact floorMul_interval r chars.length j (by decide) (by decide)
  · exact floorMul_lt _ _ (by decide)

/-- C18, the two copies at one input: on an empty surface, with the draws
`0, 0.25, 0.5, …`, `setText("H")` builds in both copies the one cell with `start = 0` and
`end = 10`; its first tick draws the glyph at `floor(0.5 * 26) = 13` of the alphabet of
`src/script.js`, a `+`, and at `floor(0.5 * 28) = 14` of the alphabet of the copy in
`src/assets/script/script.js`, a `=`, so the two write different content. -/
theorem duplicates_differ :
    chars.length = 26 ∧ Assets.chars.length = 28 ∧
    chars[11]? = some 8212 ∧ (Assets.chars.take 14).drop 11 = [226, 8364, 8221] ∧
    (setText copyDraws init [] (units "H")).2.trace =
      [Effect.write (units "<span class=\"dud\">+</span>"), Effect.request 1] ∧
    (Assets.setText copyDraws init [] (units "H")).2.trace =
      [Effect.write (units "<span class=\"dud\">=</span>"), Effect.request 1] := by
  decide

/-- C19 (no error paths): from every reachable state, for every `oldText` and `newText`,
no call of `this.resolve()` finds the field unset: there is no `TypeError` in the trace of
the state, of the state after `setText`, after any number of animation frames, or after
any scheduled frame callback, and every entry of `update` finds the resolver of a promise.
With an empty surface and an empty target, `setText` builds no cell and its first tick
writes the empty string and then resolves the returned promise. -/
theorem no_error_paths (R : Nat → Draw) (s : State) (oldText newText : Str)
    (hs : Reachable R s) :
    Effect.throw ∉ s.trace ∧
    Effect.throw ∉ (setText R s oldText newText).2.trace ∧
    (∀ k, Effect.throw ∉ (ticks R s oldText newText k).trace) ∧
    (∀ h ∈ s.pending, Effect.throw ∉ (frameCallback R s h).trace) ∧
    (∀ u, AtTick R u → ∃ p, u.resolve = some p) ∧
    builtQueue R s [] [] = [] ∧
    (setText R s [] []).2.trace =
      s.trace ++ [Effect.write [], Effect.resolve (setText R s [] []).1] := by
  refine ⟨(inv_of_reachable R s hs).no_throw,
    (inv_of_reachable R _ (Reachable.setText s oldText newText hs)).no_throw, ?_, ?_, ?_,
    ?_, ?_⟩
  · intro k
    exact (inv_of_reachable R _ (reachable_ticks R s oldText newText hs k)).no_throw
  · intro h hh
    exact (inv_of_reachable R _ (Reachable.frame s h hs hh)).no_throw
  · intro u hu
    obtain ⟨p, hp, _⟩ := (ready_of_atTick R u hu).resolve_some
    exact ⟨p, hp⟩
  · simp [builtQueue_eq]
  · have hq : (setTextPre R s [] []).queue = [] := by
      have := builtQueue_eq R s [] []
      simpa [builtQueue] using this
    have h0 : maxEnd (setTextPre R s [] []).queue ≤ (setTextPre R s [] []).frame := by
      rw [hq]; exact Nat.zero_le _
    show (update R (setTextPre R s [] [])).trace = _
    rw [update_of_settled R _ h0, hq]
    rfl

theorem no_error_paths_witness :
    Reachable sampleDraws (setText sampleDraws init [] (units "Hi")).2 ∧
    (∀ k, Effect.throw ∉
      (ticks sampleDraws (setText sampleDraws init [] (units "Hi")).2 (units "Hi") [] k).trace) :=
  ⟨Reachable.setText init [] (units "Hi") Reachable.init,
    (no_error_paths sampleDraws (setText sampleDraws init [] (units "Hi")).2 (units "Hi") []
      (Reachable.setText init [] (units "Hi") Reachable.init)).2.2.1⟩

theorem glyphsOk_visit (R : Nat → Draw) (f : Nat) (a : Loop) (c : Cell)
    (ha : GlyphsOk a.queue) (hc : ∀ g, c.char = some g → g ∈ chars) :
    GlyphsOk (visit R f a c).queue := by
  by_cases h : c.start ≤ f ∧ f < c.end_
  · obtain ⟨g, _, hq, hg⟩ := visit_scrambling R f a c h.1 h.2
    rw [hq]
    intro d hd g' hg'
    rcases List.mem_append.1 hd with hd | hd
    · exact ha d hd g' hg'
    · rw [List.mem_singleton] at hd
      subst hd
      simp only [Option.some.injEq] at hg'
      subst hg'
      rcases hg with hg | hg
      · exact hg
      · exact hc _ hg
  · rw [(visit_idle R f a c h).1]
    intro d hd g' hg'
    rcases List.mem_append.1 hd with hd | hd
    · exact ha d hd g' hg'
    · rw [List.mem_singleton] at hd
      subst hd
      exact hc g' hg'

theorem glyphsOk_foldl (R : Nat → Draw) (f : Nat) (q : List Cell) (a : Loop)
    (ha : GlyphsOk a.queue) (hq : GlyphsOk q) :
    GlyphsOk (q.foldl (visit R f) a).queue := by
  induction q generalizing a with
  | nil => exact ha
  | cons c q ih =>
    exact ih _ (glyphsOk_visit R f a c ha (hq c (List.mem_cons_self _ _)))
      (fun d hd => hq d (List.mem_cons_of_mem _ hd))

theorem glyphsOk_update (R : Nat → Draw) (u : State) (hu : GlyphsOk u.queue) :
    GlyphsOk (update R u).queue := by
  rw [update_queue]
  exact glyphsOk_foldl R u.frame u.queue _ (fun _ h => absurd h (List.not_mem_nil _)) hu

theorem glyphsOk_setTextPre (R : Nat → Draw) (s : State) (oldText newText : Str) :
    GlyphsOk (setTextPre R s oldText newText).queue := by
  intro c hc g hg
  have hq : (setTextPre R s oldText newText).queue = builtQueue R s oldText newText := rfl
  rw [hq, builtQueue_eq] at hc
  obtain ⟨i, _, rfl⟩ := List.mem_map.1 hc
  simp [builtCell] at hg

theorem glyphsOk_of_reachable (R : Nat → Draw) (s : State) (hs : Reachable R s) :
    GlyphsOk s.queue := by
  induction hs with
  | init => intro c hc; simp [init] at hc
  | setText s oldText newText _ _ =>
    exact glyphsOk_update R _ (glyphsOk_setTextPre R s oldText newText)
  | frame s h _ _ ih => exact glyphsOk_update R _ ih

theorem glyphsOk_of_atTick (R : Nat → Draw) (u : State) (hu : AtTick R u) :
    GlyphsOk u.queue := by
  cases hu with
  | setText s oldText newText _ => exact glyphsOk_setTextPre R s oldText newText
  | frame s h hs _ => exact glyphsOk_of_reachable R s hs

theorem tickEffects_eq_render (R : Nat → Draw) (u : State) :
    ∃ e, tickEffects R u = [Effect.write (renderRule u.frame (update R u).queue), e] := by
  obtain ⟨w, e, h, _⟩ := tickEffects_shape R u
  have hw : w = (loop R u.frame u.queue u.used).output := by
    unfold tickEffects at h
    by_cases hm : maxEnd u.queue ≤ u.frame
    · rw [update_of_settled R u hm] at h
      have hl : (loop R u.frame u.queue u.used).output = (u.queue.map Cell.to_).flatten := by
        simp [loop, foldl_visit_settled R u.frame u.queue _ ((maxEnd_le_iff _ _).1 hm)]
      simp only [List.drop_left] at h
      rw [hl]
      have := congrArg List.head? h
      simpa using this.symm
    · rw [update_of_unsettled R u (by omega)] at h
      simp only [List.drop_left] at h
      have := congrArg List.head? h
      simpa using this.symm
  refine ⟨e, ?_⟩
  rw [h, hw, update_queue, (loop_render R u.frame u.queue u.used).1]

/-- C21 (`randomChar` is in range): for every double `r` in `[0, 1)` the index
`floor(r * len chars)`, with the product rounded as doubles are, is below `len chars`
(at the double `0.1923076923076923`, below `5 / 26`, it is `5`, the backslash), so
`randomChar` returns a unit of the alphabet,
which a template literal prints as that one unit, never `undefined`. On every tick, entered
inside `setText` or as a scheduled frame callback, the content written is the concatenation
of the emitted units of the cells, and the unit of every cell with `start ≤ frame < end` is
`<span class="dud">g</span>` for one unit `g` of the alphabet, the glyph the cell holds. -/
theorem randomChar_in_range (R : Nat → Draw) (u : State) (hu : AtTick R u) :
    (∀ r : Draw, r.floorMul chars.length < chars.length) ∧
    (draw01923.floorMul chars.length = 5 ∧ randomChar (fun _ => draw01923) 0 = some 92) ∧
    (∀ n, ∃ g, randomChar R n = some g ∧ g ∈ chars ∧ glyphText (randomChar R n) = [g]) ∧
    (∃ e, tickEffects R u = [Effect.write (renderRule u.frame (update R u).queue), e]) ∧
    (∀ c ∈ (update R u).queue, c.start ≤ u.frame → u.frame < c.end_ →
      ∃ g ∈ chars, c.char = some g ∧ renderCell u.frame c = noiseSpan g) := by
  refine ⟨fun r => floorMul_lt r _ (by decide), by decide, ?_, tickEffects_eq_render R u, ?_⟩
  · intro n
    obtain ⟨g, hg, hmem⟩ := randomChar_eq_some R n
    exact ⟨g, hg, hmem, by rw [hg]; rfl⟩
  · intro c hc h1 h2
    have hok := glyphsOk_update R u (glyphsOk_of_atTick R u hu)
    have hsome : ∃ g, c.char = some g := by
      have := (loop_render R u.frame u.queue u.used).2
      rw [← update_queue] at this
      exact this c hc h1 h2
    obtain ⟨g, hg⟩ := hsome
    refine ⟨g, hok c hc g hg, hg, ?_⟩
    have hn : ¬ c.end_ ≤ u.frame := by omega
    simp [renderCell, hn, h1, hg]

theorem randomChar_in_range_witness :
    AtTick sampleDraws (framePre (setText sampleDraws init [] (units "Hi")).2 1) ∧
    (∀ c ∈ (update sampleDraws
        (framePre (setText sampleDraws init [] (units "Hi")).2 1)).queue,
      c.start ≤ (framePre (setText sampleDraws init [] (units "Hi")).2 1).frame →
      (framePre (setText sampleDraws init [] (units "Hi")).2 1).frame < c.end_ →
      ∃ g ∈ chars, c.char = some g ∧
        renderCell (framePre (setText sampleDraws init [] (units "Hi")).2 1).frame c =
          noiseSpan g) :=
  ⟨AtTick.frame _ 1 (Reachable.setText init [] (units "Hi") Reachable.init) (by decide),
    (randomChar_in_range sampleDraws _
      (AtTick.frame _ 1 (Reachable.setText init [] (units "Hi") Reachable.init)
        (by decide))).2.2.2.2⟩

/-- C9 (rendering rule): for every state and all draws, the tick that `update` runs at
frame `f` keeps the cells in number and order, each with its `from`, `to`, `start` and
`end`, and writes to the surface, as its first effect and its only write, the concatenation
in index order of one unit per cell: the `to` of the cell it received at that index where
`f ≥ end`; else, where `f ≥ start`, the noise glyph the cell holds after the tick, inside
`<span class="dud">…</span>`; else the `from` of the cell it received. -/
theorem render_rule (R : Nat → Draw) (u : State) :
    (∃ e, tickEffects R u = [Effect.write (renderRule u.frame (update R u).queue), e] ∧
      ∀ w, e ≠ Effect.write w) ∧
    (update R u).trace = u.trace ++ tickEffects R u ∧
    (update R u).queue.length = u.queue.length ∧
    (∀ (i : Nat) (c : Cell), u.queue[i]? = some c →
      ∃ c', (update R u).queue[i]? = some c' ∧
        c'.from_ = c.from_ ∧ c'.to_ = c.to_ ∧ c'.start = c.start ∧ c'.end_ = c.end_ ∧
        (c.end_ ≤ u.frame → renderCell u.frame c' = c.to_) ∧
        (¬ c.end_ ≤ u.frame → c.start ≤ u.frame →
          ∃ g, c'.char = some g ∧ renderCell u.frame c' = noiseSpan g) ∧
        (¬ c.end_ ≤ u.frame → ¬ c.start ≤ u.frame → renderCell u.frame c' = c.from_)) ∧
    (∀ c ∈ (update R u).queue, c.start ≤ u.frame → u.frame < c.end_ →
      ∃ g, c.char = some g) := by
  have hl := loop_render R u.frame u.queue u.used
  have hfix := update_queue_fixed R u
  have hglyph : ∀ c ∈ (update R u).queue, c.start ≤ u.frame → u.frame < c.end_ →
      ∃ g, c.char = some g := by
    rw [update_queue]; exact hl.2
  obtain ⟨w, e, he, hne⟩ := tickEffects_shape R u
  obtain ⟨e', he'⟩ := tickEffects_eq_render R u
  refine ⟨⟨e', he', ?_⟩, update_trace R u, by simpa using congrArg List.length hfix, ?_,
    hglyph⟩
  · have : e' = e := by
      rw [he] at he'
      simp only [List.cons.injEq, and_true] at he'
      exact he'.2.symm
    rw [this]; exact hne
  · intro i c hc
    obtain ⟨c', hc', hf⟩ := getElem?_of_map_fixed _ _ hfix.symm i c hc
    have h1 : c'.from_ = c.from_ := congrArg (fun x : Str × Str × Nat × Nat => x.1) hf
    have h2 : c'.to_ = c.to_ := congrArg (fun x : Str × Str × Nat × Nat => x.2.1) hf
    have h3 : c'.start = c.start := congrArg (fun x : Str × Str × Nat × Nat => x.2.2.1) hf
    have h4 : c'.end_ = c.end_ := congrArg (fun x : Str × Str × Nat × Nat => x.2.2.2) hf
    refine ⟨c', hc', h1, h2, h3, h4, ?_, ?_, ?_⟩
    · intro h
      simp [renderCell, h4, h, h2]
    · intro hn hs
      obtain ⟨g, hg⟩ := hglyph c' (List.getElem?_mem hc') (by omega) (by omega)
      exact ⟨g, hg, by simp [renderCell, h4, h3, hn, hs, hg]⟩
    · intro hn hs
      simp [renderCell, h4, h3, hn, hs, h1]

end TextScramble

namespace Portfolio

open TextScramble (Str CodeUnit units)

theorem includes_iff (s t : Str) : includes s t = true ↔ t <:+: s := by
  simp only [includes, List.any_eq_true, List.mem_tails, List.isPrefixOf_iff_prefix]
  rw [List.infix_iff_prefix_suffix]
  constructor
  · rintro ⟨u, hu, ht⟩
    exact ⟨u, ht, hu⟩
  · rintro ⟨u, ht, hu⟩
    exact ⟨u, hu, ht⟩

theorem getElem?_renderFrom (k : Nat) (cmds : List Command) (j : Nat) :
    (renderFrom k cmds)[j]? = cmds[j]?.map fun cmd =>
      { textContent := cmd.name, index := k + j, selected := k + j == 0 } := by
  induction cmds generalizing k j with
  | nil => simp [renderFrom]
  | cons cmd rest ih =>
    cases j with
    | zero => simp [renderFrom]
    | succ j =>
      simp only [renderFrom, List.getElem?_cons_succ, ih]
      have : k + 1 + j = k + (j + 1) := by omega
      rw [this]

theorem map_textContent_renderFrom (k : Nat) (cmds : List Command) :
    (renderFrom k cmds).map Li.textContent = cmds.map Command.name := by
  induction cmds generalizing k with
  | nil => rfl
  | cons cmd rest ih => simp [renderFrom, ih]

/-- C22 (command palette filtering): for every lower-casing function of the host and every
value of the command input, the `input` listener renders, in the order of `commands`, one
item for each command whose lower-cased name contains the lower-cased value as a run of
consecutive units, and no other; the item at position `0`, and only that one, carries the
class `selected`, and item `j` has `data-index` `j`. When the empty string lower-cases to
itself, the empty value renders all commands. -/
theorem palette_filtering (toLowerCase : Str → Str) (value : Str) (old : List Li) :
    (∃ results, inputListener toLowerCase value (some old) = some results ∧
      results.map Li.textContent =
        (commands.filter fun cmd =>
          decide (toLowerCase value <:+: toLowerCase cmd.name)).map Command.name ∧
      (∀ (j : Nat) (li : Li), results[j]? = some li →
        (li.selected = true ↔ j = 0) ∧ li.index = j)) ∧
    (toLowerCase [] = [] →
      inputListener toLowerCase [] (some old) = renderCommands (some old) commands ∧
      ∃ results, inputListener toLowerCase [] (some old) = some results ∧
        results.map Li.textContent = commands.map Command.name) := by
  have hf : ∀ q : Str, (commands.filter fun cmd => includes (toLowerCase cmd.name) q) =
      commands.filter fun cmd => decide (q <:+: toLowerCase cmd.name) := by
    intro q
    apply List.filter_congr
    intro cmd _
    by_cases h : q <:+: toLowerCase cmd.name
    · simp [h, (includes_iff _ _).2 h]
    · have : includes (toLowerCase cmd.name) q = false := by
        cases hi : includes (toLowerCase cmd.name) q
        · rfl
        · exact absurd ((includes_iff _ _).1 hi) h
      simp [h, this]
  refine ⟨⟨_, rfl, ?_, ?_⟩, ?_⟩
  · rw [map_textContent_renderFrom, hf]
  · intro j li hli
    rw [getElem?_renderFrom] at hli
    cases hc : (commands.filter fun cmd =>
        includes (toLowerCase cmd.name) (toLowerCase value))[j]? with
    | none => rw [hc] at hli; simp at hli
    | some cmd =>
      rw [hc] at hli
      simp only [Option.map_some', Option.some.injEq, Nat.zero_add] at hli
      subst hli
      simp
  · intro h0
    have hall : (commands.filter fun cmd => includes (toLowerCase cmd.name) (toLowerCase [])) =
        commands := by
      rw [hf, h0]
      simp
    have h1 : inputListener toLowerCase [] (some old) = renderCommands (some old) commands := by
      simp only [inputListener, hall]
    refine ⟨h1, renderFrom 0 commands, ?_, map_textContent_renderFrom 0 commands⟩
    rw [h1]; rfl

theorem palette_filtering_witness :
    asciiLower [] = [] ∧
    inputListener asciiLower [] (some []) = renderCommands (some []) commands ∧
    (inputListener asciiLower (units "OPEN") (some [])).map (List.map Li.textContent) =
      some [units "Open GitHub", units "Open LinkedIn"] :=
  ⟨rfl, ((palette_filtering asciiLower (units "OPEN") []).2 rfl).1, by decide⟩

theorem querySelected_of_selectedAt (results : List Li) (i : Nat)
    (h : SelectedAt results i) : querySelected results = some i := by
  induction results generalizing i with
  | nil => exact absurd h.1 (Nat.not_lt_zero _)
  | cons li rest ih =>
    cases i with
    | zero =>
      have : li.selected = true := (h.2 0 li (by simp)).2 rfl
      simp [querySelected, this]
    | succ i =>
      have hli : li.selected = false := by
        cases hs : li.selected
        · rfl
        · exact absurd ((h.2 0 li (by simp)).1 hs) (by omega)
      have hrest : SelectedAt rest i := by
        refine ⟨Nat.lt_of_succ_lt_succ h.1, fun j lj hj => ?_⟩
        have := h.2 (j + 1) lj (by simpa using hj)
        rw [this]; omega
      simp [querySelected, hli, ih i hrest]

theorem getElem?_setSelected (results : List Li) (i : Nat) (b : Bool) (j : Nat) :
    (setSelected results i b)[j]? = results[j]?.map fun li =>
      if j = i then { li with selected := b } else li := by
  induction results generalizing i j with
  | nil => simp [setSelected]
  | cons li rest ih =>
    cases i with
    | zero =>
      cases j with
      | zero => simp [setSelected]
      | succ j => simp [setSelected]
    | succ i =>
      cases j with
      | zero => simp [setSelected]
      | succ j => simp [setSelected, ih]

theorem length_setSelected (results : List Li) (i : Nat) (b : Bool) :
    (setSelected results i b).length = results.length := by
  induction results generalizing i with
  | nil => rfl
  | cons li rest ih =>
    cases i with
    | zero => rfl
    | succ i => simp [setSelected, ih]

theorem selectedAt_moveSelection (p : Palette) (i n : Nat) (h : SelectedAt p.results i)
    (hn : n < p.results.length) :
    SelectedAt (moveSelection p (some i) n).results n ∧
    (moveSelection p (some i) n).results.map (fun li => (li.textContent, li.index)) =
      p.results.map (fun li => (li.textContent, li.index)) := by
  refine ⟨⟨by simp [moveSelection, length_setSelected, hn], ?_⟩, ?_⟩
  · intro j lj hj
    simp only [moveSelection, getElem?_setSelected, Option.map_map] at hj
    cases hr : p.results[j]? with
    | none => rw [hr] at hj; simp at hj
    | some li =>
      rw [hr] at hj
      simp only [Option.map_some', Function.comp_apply, Option.some.injEq] at hj
      have hsel := h.2 j li hr
      subst hj
      split_ifs with hjn hji hji
      · simp [hjn]
      · simp [hjn]
      · simp [hjn]
      · rw [hsel]
        exact ⟨fun h' => absurd h' hji, fun h' => absurd h' hjn⟩
  · apply List.ext_getElem?
    intro j
    simp only [moveSelection, List.getElem?_map, getElem?_setSelected, Option.map_map]
    cases p.results[j]? with
    | none => rfl
    | some li =>
      simp only [Option.map_some', Function.comp_apply, Option.some.injEq]
      split_ifs <;> rfl

theorem results_closeCommandPalette (p : Palette) :
    (closeCommandPalette p).results = p.results := by
  unfold closeCommandPalette
  split <;> rfl

/-- The `keydown` listener of `#command-input` alone, on a list with exactly one selected
item. -/
theorem keydownListener_selection (key : Str) (p : Palette) (i : Nat)
    (hsel : SelectedAt p.results i) :
    (key = units "ArrowDown" →
      SelectedAt (keydownListener key p).results
        (if i + 1 < p.results.length then i + 1 else 0)) ∧
    (key = units "ArrowUp" →
      SelectedAt (keydownListener key p).results
        (if 0 < i then i - 1 else p.results.length - 1)) ∧
    (key ≠ units "ArrowDown" → key ≠ units "ArrowUp" →
      (keydownListener key p).results = p.results) ∧
    (∃ j, SelectedAt (keydownListener key p).results j) ∧
    (keydownListener key p).results.map (fun li => (li.textContent, li.index)) =
      p.results.map (fun li => (li.textContent, li.index)) := by
  have hlen : ¬ p.results.length = 0 := by have := hsel.1; omega
  have hq := querySelected_of_selectedAt p.results i hsel
  have hdown : key = units "ArrowDown" → keydownListener key p =
      moveSelection p (some i) (if i + 1 < p.results.length then i + 1 else 0) := by
    intro hk
    simp [keydownListener, hlen, hq, hk]
  have hne : units "ArrowUp" ≠ units "ArrowDown" := by decide
  have hup : key = units "ArrowUp" → keydownListener key p =
      moveSelection p (some i) (if 0 < i then i - 1 else p.results.length - 1) := by
    intro hk
    simp [keydownListener, hlen, hq, hk, hne]
  have hother : key ≠ units "ArrowDown" → key ≠ units "ArrowUp" →
      (keydownListener key p).results = p.results := by
    intro h1 h2
    simp only [keydownListener, hlen, hq, h1, h2, if_false]
    split
    · split
      · split
        · exact results_closeCommandPalette _
        · rfl
      · rfl
    · rfl
  have hn1 : (if i + 1 < p.results.length then i + 1 else 0) < p.results.length := by
    split <;> omega
  have hn2 : (if 0 < i then i - 1 else p.results.length - 1) < p.results.length := by
    have := hsel.1
    split <;> omega
  refine ⟨?_, ?_, hother, ?_, ?_⟩
  · intro hk
    rw [hdown hk]
    exact (selectedAt_moveSelection p i _ hsel hn1).1
  · intro hk
    rw [hup hk]
    exact (selectedAt_moveSelection p i _ hsel hn2).1
  · by_cases h1 : key = units "ArrowDown"
    · rw [hdown h1]
      exact ⟨_, (selectedAt_moveSelection p i _ hsel hn1).1⟩
    · by_cases h2 : key = units "ArrowUp"
      · rw [hup h2]
        exact ⟨_, (selectedAt_moveSelection p i _ hsel hn2).1⟩
      · rw [hother h1 h2]
        exact ⟨i, hsel⟩
  · by_cases h1 : key = units "ArrowDown"
    · rw [hdown h1]
      exact (selectedAt_moveSelection p i _ hsel hn1).2
    · by_cases h2 : key = units "ArrowUp"
      · rw [hup h2]
        exact (selectedAt_moveSelection p i _ hsel hn2).2
      · rw [hother h1 h2]

theorem selectedAt_renderFrom (cmds : List Command) (h : cmds ≠ []) :
    SelectedAt (renderFrom 0 cmds) 0 := by
  refine ⟨?_, ?_⟩
  · cases cmds with
    | nil => exact absurd rfl h
    | cons cmd rest => simp [renderFrom]
  · intro j li hli
    rw [getElem?_renderFrom] at hli
    cases hc : cmds[j]? with
    | none => rw [hc] at hli; simp at hli
    | some cmd =>
      rw [hc] at hli
      simp only [Option.map_some', Option.some.injEq, Nat.zero_add] at hli
      subst hli
      simp

theorem keydownListener_other (key : Str) (p : Palette) (h1 : key ≠ units "ArrowDown")
    (h2 : key ≠ units "ArrowUp") (h3 : key ≠ units "Enter") : keydownListener key p = p := by
  unfold keydownListener
  split
  · rfl
  · simp [h1, h2, h3]

theorem results_windowKeydown (e : KeyEvent) (p : Palette) :
    (windowKeydown e p).results =
      if (e.metaKey || e.ctrlKey) = true ∧ e.key = units "k" ∧ p.visible ≠ none
      then renderFrom 0 commands else p.results := by
  have hclose : ∀ q : Palette, (if (e.key == units "Escape" && q.visible == some true) = true
      then closeCommandPalette q else q).results = q.results := by
    intro q
    split
    · exact results_closeCommandPalette q
    · rfl
  unfold windowKeydown
  simp only []
  rw [hclose]
  by_cases hk : (e.metaKey || e.ctrlKey) = true ∧ e.key = units "k"
  · have hb : ((e.metaKey || e.ctrlKey) && e.key == units "k") = true := by
      simp [hk.1, hk.2]
    rw [if_pos hb]
    cases hv : p.visible with
    | none => simp [openCommandPalette, hv]
    | some b => simp [openCommandPalette, hv, hk.1, hk.2, renderCommands]
  · have hb : ¬ ((e.metaKey || e.ctrlKey) && e.key == units "k") = true := by
      intro h
      simp only [Bool.and_eq_true, beq_iff_eq] at h
      exact hk h
    rw [if_neg hb]
    have : ¬ ((e.metaKey || e.ctrlKey) = true ∧ e.key = units "k" ∧ p.visible ≠ none) :=
      fun h => hk ⟨h.1, h.2.1⟩
    rw [if_neg this]

/-- C23, as the code has it: let the result list have exactly one selected item, at position
`i`. A press of `ArrowDown` leaves exactly one item selected, the one at `i + 1`, or at `0`
when `i` is the last position; a press of `ArrowUp` the one at `i - 1`, or at the last
position when `i` is `0`. A press of `k` with Ctrl or Cmd on a page with the palette element
runs `openCommandPalette` in the listener of `window`: all commands are rendered and the
item at `0` is selected. Every other key press leaves the list as it is. After every key
press exactly one item is selected. An `input` event that follows a key press renders the
filtered commands and, when there are any, selects the item at `0` and no other. -/
theorem palette_key_press (e : KeyEvent) (p : Palette) (i : Nat)
    (hsel : SelectedAt p.results i) :
    (e.key = units "ArrowDown" →
      SelectedAt (keyPress e p).results (if i + 1 < p.results.length then i + 1 else 0)) ∧
    (e.key = units "ArrowUp" →
      SelectedAt (keyPress e p).results
        (if 0 < i then i - 1 else p.results.length - 1)) ∧
    (e.key ≠ units "ArrowDown" → e.key ≠ units "ArrowUp" →
      ¬ ((e.metaKey || e.ctrlKey) = true ∧ e.key = units "k" ∧ p.visible ≠ none) →
      (keyPress e p).results = p.results) ∧
    ((e.metaKey || e.ctrlKey) = true → e.key = units "k" → p.visible ≠ none →
      (keyPress e p).results = renderFrom 0 commands ∧
      SelectedAt (keyPress e p).results 0) ∧
    (∃ j, SelectedAt (keyPress e p).results j) ∧
    (∀ (toLowerCase : Str → Str) (value : Str),
      (inputEvent toLowerCase value p).results =
        renderFrom 0 (commands.filter fun cmd =>
          includes (toLowerCase cmd.name) (toLowerCase value)) ∧
      ((inputEvent toLowerCase value p).results ≠ [] →
        SelectedAt (inputEvent toLowerCase value p).results 0)) := by
  have hkd := keydownListener_selection e.key p i hsel
  have hcmds : commands ≠ [] := by decide
  have hopen : (e.metaKey || e.ctrlKey) = true → e.key = units "k" → p.visible ≠ none →
      (keyPress e p).results = renderFrom 0 commands := by
    intro h1 h2 h3
    have hk : keydownListener e.key p = p := by
      rw [h2]
      exact keydownListener_other _ p (by decide) (by decide) (by decide)
    unfold keyPress
    rw [results_windowKeydown, hk, if_pos ⟨h1, h2, h3⟩]
  have hstay : ¬ ((e.metaKey || e.ctrlKey) = true ∧ e.key = units "k") →
      (keyPress e p).results = (keydownListener e.key p).results := by
    intro h
    unfold keyPress
    rw [results_windowKeydown, if_neg (fun h' => h ⟨h'.1, h'.2.1⟩)]
  have hdown : e.key = units "ArrowDown" →
      (keyPress e p).results = (keydownListener e.key p).results := by
    intro hk
    apply hstay
    rintro ⟨_, h⟩
    rw [hk] at h
    exact absurd h (by decide)
  have hup : e.key = units "ArrowUp" →
      (keyPress e p).results = (keydownListener e.key p).results := by
    intro hk
    apply hstay
    rintro ⟨_, h⟩
    rw [hk] at h
    exact absurd h (by decide)
  refine ⟨?_, ?_, ?_, ?_, ?_, ?_⟩
  · intro hk
    rw [hdown hk]; exact hkd.1 hk
  · intro hk
    rw [hup hk]; exact hkd.2.1 hk
  · intro h1 h2 h3
    by_cases hk : (e.metaKey || e.ctrlKey) = true ∧ e.key = units "k"
    · have hv : p.visible = none := by
        by_contra hv
        exact h3 ⟨hk.1, hk.2, hv⟩
      have hkk : keydownListener e.key p = p := by
        rw [hk.2]
        exact keydownListener_other _ p (by decide) (by decide) (by decide)
      unfold keyPress
      rw [results_windowKeydown, hkk, if_neg (fun h' => h'.2.2 hv)]
    · rw [hstay hk]; exact hkd.2.2.1 h1 h2
  · intro h1 h2 h3
    have := hopen h1 h2 h3
    exact ⟨this, by rw [this]; exact selectedAt_renderFrom commands hcmds⟩
  · by_cases hk : (e.metaKey || e.ctrlKey) = true ∧ e.key = units "k" ∧ p.visible ≠ none
    · rw [hopen hk.1 hk.2.1 hk.2.2]
      exact ⟨0, selectedAt_renderFrom commands hcmds⟩
    · by_cases hk2 : (e.metaKey || e.ctrlKey) = true ∧ e.key = units "k"
      · have hv : p.visible = none := by
          by_contra hv
          exact hk ⟨hk2.1, hk2.2, hv⟩
        have hkk : keydownListener e.key p = p := by
          rw [hk2.2]
          exact keydownListener_other _ p (by decide) (by decide) (by decide)
        have : (keyPress e p).results = p.results := by
          unfold keyPress
          rw [results_windowKeydown, hkk, if_neg (fun h' => h'.2.2 hv)]
        rw [this]; exact ⟨i, hsel⟩
      · rw [hstay hk2]; exact hkd.2.2.2.1
  · intro toLowerCase value
    have hr : (inputEvent toLowerCase value p).results =
        renderFrom 0 (commands.filter fun cmd =>
          includes (toLowerCase cmd.name) (toLowerCase value)) := rfl
    refine ⟨hr, ?_⟩
    intro hne
    rw [hr] at hne ⊢
    apply selectedAt_renderFrom
    intro h0
    rw [h0] at hne
    exact hne rfl

theorem palette_key_press_witness :
    SelectedAt openedPalette.results 0 ∧
    SelectedAt
      (keyPress { key := units "ArrowUp", metaKey := false, ctrlKey := false }
        openedPalette).results
      (if 0 < 0 then 0 - 1 else openedPalette.results.length - 1) ∧
    (keyPress { key := units "ArrowUp", metaKey := false, ctrlKey := false }
        openedPalette).results.map Li.selected =
      [false, false, false, false, false, false, false, false, false, true] :=
  ⟨selectedAt_renderFrom commands (by decide),
    (palette_key_press { key := units "ArrowUp", metaKey := false, ctrlKey := false }
      openedPalette 0 (selectedAt_renderFrom commands (by decide))).2.1 rfl,
    by decide⟩

/-- C23 fails as stated: open the palette and press `ArrowDown`, so that the item at
position `1` is the selected one; a press of `k` with Ctrl, which is neither `ArrowDown`
nor `ArrowUp`, then moves the selection to the item at position `0`, and so does the
`input` event after typing a letter. -/
theorem palette_selection_counterexample :
    (keyPress { key := units "ArrowDown", metaKey := false, ctrlKey := false }
        openedPalette).results.map Li.selected =
      [false, true, false, false, false, false, false, false, false, false] ∧
    (keyPress { key := units "k", metaKey := false, ctrlKey := true }
        (keyPress { key := units "ArrowDown", metaKey := false, ctrlKey := false }
          openedPalette)).results.map Li.selected =
      [true, false, false, false, false, false, false, false, false, false] ∧
    (inputEvent asciiLower (units "e")
        (keyPress { key := units "e", metaKey := false, ctrlKey := false }
          (keyPress { key := units "ArrowDown", metaKey := false, ctrlKey := false }
            openedPalette))).results.map (fun li => (li.textContent, li.selected)) =
      [(units "Home", true), (units "Resume", false), (units "Projects", false),
       (units "Toggle Theme", false), (units "Contact Me", false),
       (units "View Source", false), (units "Open GitHub", false),
       (units "Open LinkedIn", false)] := by
  decide

theorem throttled_returns (limit : Nat) (s : Throttle) (c : CallArgs)
    (h : ¬ s.inThrottle = some true) :
    throttled limit s c Behaviour.returns =
      { invoked := s.invoked ++ [c], inThrottle := some true,
        timers := s.timers ++ [(s.nextTimer, limit)], nextTimer := s.nextTimer + 1 } := by
  simp [throttled, throttledWith, runFunc, h]

theorem throttled_throws (limit : Nat) (s : Throttle) (c : CallArgs)
    (h : ¬ s.inThrottle = some true) :
    throttled limit s c Behaviour.throws = { s with invoked := s.invoked ++ [c] } := by
  simp [throttled, throttledWith, runFunc, h]

theorem throttled_dropped (limit : Nat) (s : Throttle) (c : CallArgs) (b : Behaviour)
    (h : s.inThrottle = some true) : throttled limit s c b = s := by
  simp [throttled, throttledWith, h]

theorem throttleInv_throttled (limit : Nat) (s : Throttle) (c : CallArgs) (b : Behaviour)
    (hb : b = Behaviour.returns ∨ b = Behaviour.throws) (hs : ThrottleInv s) :
    ThrottleInv (throttled limit s c b) := by
  by_cases h : s.inThrottle = some true
  · rw [throttled_dropped limit s c b h]; exact hs
  · have ht : s.timers = [] := by
      by_contra hne
      exact h (hs.flag_iff.2 hne)
    have := hs.invoked_ge
    rcases hb with rfl | rfl
    · rw [throttled_returns limit s c h]
      refine ⟨by simp, by simp [ht], ?_⟩
      simp only [List.length_append, List.length_singleton]; omega
    · rw [throttled_throws limit s c h]
      refine ⟨by simpa using hs.flag_iff, hs.timers_le, ?_⟩
      simp only [List.length_append, List.length_singleton]; omega

theorem throttleInv_timerFires (s : Throttle) (h : Nat) (hs : ThrottleInv s)
    (hh : h ∈ s.timers.map Prod.fst) : ThrottleInv (timerFires s h) := by
  have hlen := hs.timers_le
  obtain ⟨t, ht, rfl⟩ := List.mem_map.1 hh
  have hone : s.timers = [t] := by
    cases hl : s.timers with
    | nil => rw [hl] at ht; cases ht
    | cons a rest =>
      rw [hl] at ht hlen
      cases rest with
      | nil =>
        rw [List.mem_singleton] at ht
        rw [ht]
      | cons b rest' => simp at hlen
  refine ⟨by simp [timerFires, hone], by simp [timerFires, hone], ?_⟩
  simpa [timerFires] using hs.invoked_ge

theorem throttleInv_of_reachable (limit : Nat) (s : Throttle)
    (hs : ThrottleReachable limit s) : ThrottleInv s := by
  induction hs with
  | init => exact ⟨by simp [throttle], by simp [throttle], by simp [throttle]⟩
  | call s c b _ hb ih => exact throttleInv_throttled limit s c b hb ih
  | fire s h _ hh ih => exact throttleInv_timerFires s h ih hh

/-- C24, as the code has it: let `func` never call the throttled function while it runs.
For every `limit`, in every state that calls and timer firings can reach, a call of the
returned function calls `func` if and only if no timer is set, that is no window is open.
When none is set, `func` is called at once with the caller's `this` and arguments; if it
returns, one timer of `limit` ms is set, and if it throws, nothing else changes, so no
window opens. When a timer is set, the call changes nothing at all: it is dropped and
nothing is kept for later. The first call calls `func`. At most one timer is set at a time
and every timer was set by its own call of `func`, so `func` is called once per window. -/
theorem throttle_window (limit : Nat) (s : Throttle) (hs : ThrottleReachable limit s)
    (c : CallArgs) (b : Behaviour) (hb : b = Behaviour.returns ∨ b = Behaviour.throws) :
    ((throttled limit s c b).invoked = s.invoked ++ [c] ↔ s.timers = []) ∧
    (s.timers = [] → b = Behaviour.returns →
      throttled limit s c b =
        { invoked := s.invoked ++ [c], inThrottle := some true,
          timers := [(s.nextTimer, limit)], nextTimer := s.nextTimer + 1 }) ∧
    (s.timers = [] → b = Behaviour.throws →
      throttled limit s c b = { s with invoked := s.invoked ++ [c] }) ∧
    (s.timers ≠ [] → throttled limit s c b = s) ∧
    (throttled limit throttle c b).invoked = [c] ∧
    s.timers.length ≤ 1 ∧
    s.nextTimer ≤ s.invoked.length + 1 := by
  have hi := throttleInv_of_reachable limit s hs
  have hflag : s.timers = [] → ¬ s.inThrottle = some true :=
    fun ht h => (hi.flag_iff.1 h) ht
  have h1 : s.timers = [] → b = Behaviour.returns → throttled limit s c b =
      { invoked := s.invoked ++ [c], inThrottle := some true,
        timers := [(s.nextTimer, limit)], nextTimer := s.nextTimer + 1 } := by
    intro ht hr
    rw [hr, throttled_returns limit s c (hflag ht), ht]
    rfl
  have h2 : s.timers = [] → b = Behaviour.throws →
      throttled limit s c b = { s with invoked := s.invoked ++ [c] } := by
    intro ht hr
    rw [hr, throttled_throws limit s c (hflag ht)]
  have h3 : s.timers ≠ [] → throttled limit s c b = s :=
    fun ht => throttled_dropped limit s c b (hi.flag_iff.2 ht)
  refine ⟨⟨?_, ?_⟩, h1, h2, h3, ?_, hi.timers_le, hi.invoked_ge⟩
  · intro hinv
    by_contra ht
    rw [h3 ht] at hinv
    have := congrArg List.length hinv
    simp at this
  · intro ht
    rcases hb with hr | hr
    · rw [h1 ht hr]
    · rw [h2 ht hr]
  · rcases hb with rfl | rfl
    · rw [throttled_returns limit throttle c (by simp [throttle])]
      simp [throttle]
    · rw [throttled_throws limit throttle c (by simp [throttle])]
      simp [throttle]

theorem throttle_window_witness :
    ThrottleReachable 100
      (throttled 100 throttle { context := 0, args := [1] } Behaviour.returns) ∧
    throttled 100 (throttled 100 throttle { context := 0, args := [1] } Behaviour.returns)
        { context := 0, args := [2] } Behaviour.returns =
      throttled 100 throttle { context := 0, args := [1] } Behaviour.returns ∧
    (throttled 100
        (timerFires (throttled 100 throttle { context := 0, args := [1] } Behaviour.returns)
          1)
        { context := 0, args := [3] } Behaviour.throws).invoked =
      [{ context := 0, args := [1] }, { context := 0, args := [3] }] :=
  ⟨ThrottleReachable.call _ _ _ ThrottleReachable.init (Or.inl rfl),
    (throttle_window 100 _ (ThrottleReachable.call _ _ _ ThrottleReachable.init (Or.inl rfl))
      { context := 0, args := [2] } Behaviour.returns (Or.inl rfl)).2.2.2.1 (by decide),
    by decide⟩

/-- C24 fails as stated: let `func`, on its first call, call the throttled function once
itself. That call finds `inThrottle` still unset, so `func` runs a second time, and both
calls set a timer, `1` and `2`. When timer `1` has fired the window of timer `2` is still
open, and yet the next call calls `func`: three calls of `func`, the last one inside an
open window. -/
theorem throttle_counterexample :
    (throttled 100 throttle { context := 0, args := [1] } reentrantOnce).invoked =
      [{ context := 0, args := [1] }, { context := 0, args := [2] }] ∧
    (throttled 100 throttle { context := 0, args := [1] } reentrantOnce).timers =
      [(1, 100), (2, 100)] ∧
    (timerFires (throttled 100 throttle { context := 0, args := [1] } reentrantOnce)
      1).timers = [(2, 100)] ∧
    (throttled 100
        (timerFires (throttled 100 throttle { context := 0, args := [1] } reentrantOnce) 1)
        { context := 0, args := [3] } Behaviour.returns).invoked =
      [{ context := 0, args := [1] }, { context := 0, args := [2] },
       { context := 0, args := [3] }] := by
  decide

theorem filterCards_eq (v : Str) (cards : List Card)
    (hcat : ∀ card ∈ cards, card.category ≠ none) :
    filterCards (some v) cards = (cards.map (shownCard v), false) := by
  induction cards with
  | nil => rfl
  | cons card rest ih =>
    have ih' := ih fun d hd => hcat d (List.mem_cons_of_mem _ hd)
    cases hc : card.category with
    | none => exact absurd hc (hcat card (List.mem_cons_self _ _))
    | some category =>
      simp only [filterCards, hc, ih', List.map_cons, argString]
      refine Prod.ext ?_ rfl
      simp only [List.cons.injEq, and_true]
      by_cases hall : v = units "all"
      · simp [shownCard, hc, hall]
      · by_cases hin : v <:+: category
        · simp [shownCard, hc, hin, (includes_iff _ _).2 hin]
        · have : includes category v = false := by
            cases hi : includes category v
            · rfl
            · exact absurd ((includes_iff _ _).1 hi) hin
          simp [shownCard, hc, hall, hin, this]

theorem filterCards_throw (filterValue : Option Str) (cards : List Card)
    (hcat : ∀ card ∈ cards, card.category ≠ none) (card : Card) (rest : List Card)
    (hn : card.category = none) :
    filterCards filterValue (cards ++ card :: rest) =
      ((filterCards filterValue cards).1 ++ { card with display := units "none" } :: rest,
        true) := by
  induction cards with
  | nil => simp [filterCards, hn]
  | cons c cs ih =>
    have ih' := ih fun d hd => hcat d (List.mem_cons_of_mem _ hd)
    cases hc : c.category with
    | none => exact absurd hc (hcat c (List.mem_cons_self _ _))
    | some category =>
      have e : filterCards filterValue (cs.append (card :: rest)) =
          ((filterCards filterValue cs).1 ++
            { card with display := units "none" } :: rest, true) := ih'
      simp only [List.cons_append, filterCards, hc]
      rw [e]

/-- C25, as the code has it: let a click hit a button whose `data-filter` is `v`. If every
card has a `data-category`, the listener throws nothing and leaves as many cards, each with
its category; the card at each position has display `'block'` if `v` is `'all'` or its
category contains `v` as a run of consecutive units, and display `'none'` if not; and two
lists of cards with the same categories come out the same, whatever was displayed before.
If these cards are followed by a card without `data-category`, the cards before it come out
as said, that card is left with display `'none'`, also for `'all'`, the listener throws
there, and the cards after it keep the display they had. -/
theorem project_filtering (v : Str) (cards : List Card)
    (hcat : ∀ card ∈ cards, card.category ≠ none) :
    (filterClick (some (some v)) cards).2 = false ∧
    (filterClick (some (some v)) cards).1.length = cards.length ∧
    (∀ (j : Nat) (card : Card), cards[j]? = some card →
      ∃ category card', card.category = some category ∧
        (filterClick (some (some v)) cards).1[j]? = some card' ∧
        card'.category = some category ∧
        (card'.display = units "block" ↔ (v = units "all" ∨ v <:+: category)) ∧
        (card'.display = units "none" ↔ ¬ (v = units "all" ∨ v <:+: category))) ∧
    (∀ cards' : List Card, cards'.map Card.category = cards.map Card.category →
      (filterClick (some (some v)) cards').1 = (filterClick (some (some v)) cards).1) ∧
    (∀ (card : Card) (rest : List Card), card.category = none →
      filterClick (some (some v)) (cards ++ card :: rest) =
        ((filterClick (some (some v)) cards).1 ++
          { card with display := units "none" } :: rest, true)) := by
  have he : filterClick (some (some v)) cards = (cards.map (shownCard v), false) :=
    filterCards_eq v cards hcat
  have hbn : units "block" ≠ units "none" := by decide
  refine ⟨by rw [he], by rw [he]; simp, ?_, ?_,
    fun card rest hn => filterCards_throw (some v) cards hcat card rest hn⟩
  · intro j card hj
    cases hc : card.category with
    | none => exact absurd hc (hcat card (List.getElem?_mem hj))
    | some category =>
      refine ⟨category, shownCard v card, rfl, by rw [he]; simp [hj], hc, ?_, ?_⟩
      · by_cases h : v = units "all" ∨ v <:+: category
        · have : v = units "all" ∨ ∃ k, card.category = some k ∧ v <:+: k := by
            rcases h with h | h
            · exact Or.inl h
            · exact Or.inr ⟨category, hc, h⟩
          simp [shownCard, this, h]
        · have : ¬ (v = units "all" ∨ ∃ k, card.category = some k ∧ v <:+: k) := by
            rintro (h' | ⟨k, hk, h'⟩)
            · exact h (Or.inl h')
            · rw [hc] at hk
              cases hk
              exact h (Or.inr h')
          simp only [shownCard, this, if_false, h, iff_false]
          exact fun h' => hbn h'.symm
      · by_cases h : v = units "all" ∨ v <:+: category
        · have : v = units "all" ∨ ∃ k, card.category = some k ∧ v <:+: k := by
            rcases h with h | h
            · exact Or.inl h
            · exact Or.inr ⟨category, hc, h⟩
          simp only [shownCard, this, if_true, h, not_true_eq_false, iff_false]
          exact hbn
        · have : ¬ (v = units "all" ∨ ∃ k, card.category = some k ∧ v <:+: k) := by
            rintro (h' | ⟨k, hk, h'⟩)
            · exact h (Or.inl h')
            · rw [hc] at hk
              cases hk
              exact h (Or.inr h')
          simp [shownCard, this, h]
  · intro cards' hmap
    have hcat' : ∀ card ∈ cards', card.category ≠ none := by
      intro card hcard
      have : card.category ∈ cards.map Card.category := by
        rw [← hmap]; exact List.mem_map_of_mem _ hcard
      obtain ⟨d, hd, hdc⟩ := List.mem_map.1 this
      rw [← hdc]; exact hcat d hd
    have he' : filterClick (some (some v)) cards' = (cards'.map (shownCard v), false) :=
      filterCards_eq v cards' hcat'
    rw [he, he']
    have hs : shownCard v = (fun k : Option Str =>
        ({ category := k,
           display := if v = units "all" ∨ ∃ category, k = some category ∧ v <:+: category
             then units "block" else units "none" } : Card)) ∘ Card.category := by
      funext card; rfl
    show cards'.map (shownCard v) = cards.map (shownCard v)
    rw [hs, ← List.map_map, ← List.map_map, hmap]

theorem project_filtering_witness :
    (∀ card ∈ [({ category := some (units "web design"), display := units "none" } : Card),
        { category := some (units "mobile"), display := units "block" }],
      card.category ≠ none) ∧
    filterClick (some (some (units "web")))
        [{ category := some (units "web design"), display := units "none" },
         { category := some (units "mobile"), display := units "block" }] =
      ([{ category := some (units "web design"), display := units "block" },
        { category := some (units "mobile"), display := units "none" }], false) ∧
    (filterClick (some (some (units "web")))
        [{ category := some (units "web design"), display := units "none" },
         { category := some (units "mobile"), display := units "block" }]).2 = false :=
  ⟨by decide, by decide,
    (project_filtering (units "web")
      [{ category := some (units "web design"), display := units "none" },
       { category := some (units "mobile"), display := units "block" }] (by decide)).1⟩

/-- C25 fails as stated: with a first card that has no `data-category`, a click on the
button `'all'` leaves that card hidden and throws before it reaches the second card, so
the second card, whose category is `web`, stays hidden if it was hidden and stays shown if
it was shown: not every card is displayed for `'all'`, and the outcome depends on which
cards were visible before. -/
theorem project_filtering_counterexample :
    filterClick (some (some (units "all")))
        [{ category := none, display := units "block" },
         { category := some (units "web"), display := units "none" }] =
      ([{ category := none, display := units "none" },
        { category := some (units "web"), display := units "none" }], true) ∧
    filterClick (some (some (units "all")))
        [{ category := none, display := units "block" },
         { category := some (units "web"), display := units "block" }] =
      ([{ category := none, display := units "none" },
        { category := some (units "web"), display := units "block" }], true) := by
  decide

end Portfolio
